import Mathlib

/-!
Verification of the document vector-store subsystem of this repository
(the `vectorStore` tool: chunked document ingestion, persistent vector
search with per-user isolation, listing, and deletion).

The TypeScript source is shallowly embedded:
* JS strings are `List Char`; `String.prototype.slice` (with its
  negative-index semantics) is `jsSlice`.
* JS plain objects used as string-keyed records are association lists
  `List (String × β)` with JS insertion-order semantics (`rget`, `rset`,
  `rdel`, `rkeys`).
* JS numbers holding scores/distances are modelled as `ℚ`; the slot
  counter and indices are `Nat` (they are integer-valued in the source).
* The potentially non-terminating chunking loop is fuel-indexed; `none`
  models divergence/fuel exhaustion.
* External effects (embedding model, ANN search, file system, clock,
  UUID generation) are parameters or explicit state fields.
-/

/-! ### JS string-keyed records (plain objects) -/

/-- Lookup `r[k]` in a JS object modelled as an insertion-ordered
association list: first entry with the key wins. -/
def rget {β : Type} : List (String × β) → String → Option β
  | [], _ => none
  | p :: r, k => if p.1 = k then some p.2 else rget r k

/-- Assignment `r[k] = v`: replaces the value in place if `k` is
present (keeping its position, as JS objects do), else appends. -/
def rset {β : Type} : List (String × β) → String → β → List (String × β)
  | [], k, v => [(k, v)]
  | p :: r, k, v => if p.1 = k then (k, v) :: r else p :: rset r k v

/-- `delete r[k]`: removes the entry with key `k` (all of them, should
the list ever contain duplicates, which a JS object cannot). -/
def rdel {β : Type} : List (String × β) → String → List (String × β)
  | [], _ => []
  | p :: r, k => if p.1 = k then rdel r k else p :: rdel r k

/-- `Object.keys(r)`, in insertion order. -/
def rkeys {β : Type} (r : List (String × β)) : List String :=
  r.map (fun p => p.1)

theorem rget_rset_self {β : Type} (r : List (String × β)) (k : String) (v : β) :
    rget (rset r k v) k = some v := by
  induction r with
  | nil => simp [rget, rset]
  | cons p r ih =>
    by_cases h : p.1 = k
    · simp [rget, rset, h]
    · simp [rget, rset, h, ih]

theorem rget_rset_ne {β : Type} (r : List (String × β)) (k k' : String) (v : β)
    (h : k ≠ k') : rget (rset r k v) k' = rget r k' := by
  induction r with
  | nil => simp [rget, rset, h]
  | cons p r ih =>
    by_cases hp : p.1 = k
    · have hpk : p.1 ≠ k' := by rw [hp]; exact h
      simp only [rset, if_pos hp, rget, if_neg hpk, if_neg h]
    · simp only [rset, if_neg hp, rget]
      by_cases hp' : p.1 = k'
      · simp [hp']
      · simp [hp', ih]

theorem rget_rdel {β : Type} (r : List (String × β)) (k k' : String) :
    rget (rdel r k) k' = if k' = k then none else rget r k' := by
  induction r with
  | nil => simp [rget, rdel]
  | cons p r ih =>
    by_cases hp : p.1 = k
    · by_cases hk : k' = k
      · simp only [rdel, if_pos hp, ih, if_pos hk]
      · have hpk : p.1 ≠ k' := by
          rw [hp]; intro hc; exact hk hc.symm
        simp only [rdel, if_pos hp, ih, if_neg hk, rget, if_neg hpk]
    · simp only [rdel, if_neg hp, rget]
      by_cases hpk : p.1 = k'
      · have hk : ¬ k' = k := by
          intro hc; exact hp (by rw [hpk, hc])
        simp only [if_pos hpk, if_neg hk]
      · simp only [if_neg hpk, ih]

/-! ### JS `String.prototype.slice` on `List Char` -/

/-- Index normalization of `String.prototype.slice`: negative indices
count from the end (clamped at 0), positive ones are clamped at the
length. -/
def jsSliceIdx (len : Nat) (i : Int) : Nat :=
  if i < 0 then len - (-i).toNat else min i.toNat len

/-- `text.slice(s, e)` for JS strings. -/
def jsSlice (l : List Char) (s e : Int) : List Char :=
  let a := jsSliceIdx l.length s
  let b := jsSliceIdx l.length e
  (l.drop a).take (b - a)

theorem jsSliceIdx_ofNat (len k : Nat) (hk : k ≤ len) :
    jsSliceIdx len (k : Int) = k := by
  simp [jsSliceIdx, hk]

theorem jsSlice_ofNat (l : List Char) (a b : Nat) (ha : a ≤ l.length)
    (hb : b ≤ l.length) :
    jsSlice l (a : Int) (b : Int) = (l.drop a).take (b - a) := by
  simp [jsSlice, jsSliceIdx_ofNat _ _ ha, jsSliceIdx_ofNat _ _ hb]

/-! ### The chunker (`chunkText`)

The source loop:
```
let start = 0;
while (start < text.length) {
  const end = Math.min(start + chunkSize, text.length);
  chunks.push(text.slice(start, end));
  if (end >= text.length) break;
  start = end - overlap;
}
```
`start` is a JS number and can go negative when `overlap >= chunkSize`,
so it is an `Int` here; the loop need not terminate, so it is
fuel-indexed, `none` modelling divergence. -/

def chunkAux (text : List Char) (chunkSize overlap : Nat) :
    Int → Nat → Option (List (List Char))
  | _, 0 => none
  | start, fuel + 1 =>
    if start < (text.length : Int) then
      let e : Int := min (start + chunkSize) (text.length : Int)
      let chunk := jsSlice text start e
      if (text.length : Int) ≤ e then some [chunk]
      else (chunkAux text chunkSize overlap (e - overlap) fuel).map
        (fun rest => chunk :: rest)
    else some []

/-- `chunkText(text, chunkSize = 1000, overlap = 200)`.  The fuel
`text.length + 1` is sufficient whenever `overlap < chunkSize`
(proved below); `none` means the source loop diverges. -/
def chunkText (text : List Char) (chunkSize : Nat := 1000)
    (overlap : Nat := 200) : Option (List (List Char)) :=
  chunkAux text chunkSize overlap 0 (text.length + 1)

/-- Unfolding of one loop iteration at a nonnegative `start`. -/
theorem chunkAux_nat_step (text : List Char) (cs ov : Nat) (k fuel : Nat) :
    chunkAux text cs ov (k : Int) (fuel + 1) =
      if k < text.length then
        if text.length ≤ min (k + cs) text.length then
          some [(text.drop k).take (min (k + cs) text.length - k)]
        else
          (chunkAux text cs ov ((min (k + cs) text.length : Nat) - (ov : Int)) fuel).map
            (fun rest => (text.drop k).take (min (k + cs) text.length - k) :: rest)
      else some [] := by
  have hmin : min ((k : Int) + (cs : Int)) ((text.length : Int)) =
      ((min (k + cs) text.length : Nat) : Int) := by
    push_cast; rfl
  by_cases hk : k < text.length
  · have hk' : (k : Int) < (text.length : Int) := by exact_mod_cast hk
    have hsl : jsSlice text (k : Int) ((min (k + cs) text.length : Nat) : Int) =
        (text.drop k).take (min (k + cs) text.length - k) := by
      apply jsSlice_ofNat
      · exact Nat.le_of_lt hk
      · exact Nat.min_le_right _ _
    by_cases hbr : text.length ≤ min (k + cs) text.length
    · have hbr' : (text.length : Int) ≤ ((min (k + cs) text.length : Nat) : Int) := by
        exact_mod_cast hbr
      simp only [chunkAux, hk', if_pos, hmin, hsl, hbr', hk, hbr, if_true]
    · have hbr' : ¬ (text.length : Int) ≤ ((min (k + cs) text.length : Nat) : Int) := by
        exact_mod_cast hbr
      simp only [chunkAux, hk', if_pos, hmin, hsl, hbr', hk, hbr, if_true, if_false]
  · have hk' : ¬ (k : Int) < (text.length : Int) := by exact_mod_cast hk
    simp only [chunkAux, hk', if_false, hk]

/-- Any fuel above `text.length - start` suffices when `overlap < chunkSize`. -/
theorem chunkAux_total (text : List Char) (cs ov : Nat) (hov : ov < cs) :
    ∀ fuel k, text.length - k < fuel →
      ∃ out, chunkAux text cs ov (k : Int) fuel = some out := by
  intro fuel
  induction fuel with
  | zero => intro k h; omega
  | succ fuel ih =>
    intro k h
    rw [chunkAux_nat_step]
    by_cases hk : k < text.length
    · by_cases hbr : text.length ≤ min (k + cs) text.length
      · exact ⟨[(text.drop k).take (min (k + cs) text.length - k)],
          by rw [if_pos hk, if_pos hbr]⟩
      · have hmlt : k + cs < text.length := by
          rcases Nat.lt_or_ge (k + cs) text.length with hc | hc
          · exact hc
          · exact absurd (by omega : text.length ≤ min (k + cs) text.length) hbr
        have hmin : min (k + cs) text.length = k + cs := by omega
        have hcast : ((min (k + cs) text.length : Nat) : Int) - (ov : Int) =
            ((k + cs - ov : Nat) : Int) := by
          rw [hmin]; omega
        obtain ⟨out, hout⟩ := ih (k + cs - ov) (by omega)
        refine ⟨(text.drop k).take (min (k + cs) text.length - k) :: out, ?_⟩
        rw [if_pos hk, if_neg hbr, hcast, hout]
        rfl
    · exact ⟨[], by simp [hk]⟩

/-- Dropping the overlap of every chunk produced from position `k`
onwards and concatenating yields the text from position `k + overlap`. -/
theorem chunkAux_join (text : List Char) (cs ov : Nat) (hov : ov < cs) :
    ∀ fuel k, k < text.length → k + ov ≤ text.length → text.length - k < fuel →
      ∃ out, chunkAux text cs ov (k : Int) fuel = some out ∧
        (out.map (fun c => c.drop ov)).flatten = text.drop (k + ov) := by
  intro fuel
  induction fuel with
  | zero => intro k _ _ h; omega
  | succ fuel ih =>
    intro k hk hkov h
    rw [chunkAux_nat_step, if_pos hk]
    by_cases hbr : text.length ≤ min (k + cs) text.length
    · have hmin : min (k + cs) text.length = text.length := by omega
      refine ⟨_, by rw [if_pos hbr], ?_⟩
      have hchunk : (text.drop k).take (min (k + cs) text.length - k) = text.drop k := by
        rw [hmin]
        exact List.take_of_length_le (by rw [List.length_drop])
      simp only [List.map_cons, List.map_nil, List.flatten_cons, List.flatten_nil,
        hchunk, List.append_nil]
      rw [List.drop_drop]
    · have hmlt : k + cs < text.length := by
        rcases Nat.lt_or_ge (k + cs) text.length with hc | hc
        · exact hc
        · exact absurd (by omega : text.length ≤ min (k + cs) text.length) hbr
      have hmin : min (k + cs) text.length = k + cs := by omega
      have hcast : ((min (k + cs) text.length : Nat) : Int) - (ov : Int) =
          ((k + cs - ov : Nat) : Int) := by
        rw [hmin]; omega
      obtain ⟨out, hout, hjoin⟩ := ih (k + cs - ov) (by omega) (by omega) (by omega)
      refine ⟨_, by rw [if_neg hbr, hcast, hout]; rfl, ?_⟩
      have hchunk : ((text.drop k).take (min (k + cs) text.length - k)).drop ov =
          (text.drop (k + ov)).take (cs - ov) := by
        rw [hmin, Nat.add_sub_cancel_left, List.drop_take, List.drop_drop]
      have hrest : text.drop (k + cs - ov + ov) = (text.drop (k + ov)).drop (cs - ov) := by
        rw [List.drop_drop]
        congr 1
        omega
      simp only [List.map_cons, List.flatten_cons, hchunk, hjoin, hrest]
      exact List.take_append_drop _ _

/-- The reconstruction of the spec's round-trip property: keep the
first chunk whole, strip the first `overlap` characters of every later
chunk, and concatenate. -/
def reconstruct (overlap : Nat) : List (List Char) → List Char
  | [] => []
  | c :: rest => c ++ (rest.map (fun x => x.drop overlap)).flatten

/-- When `overlap ≥ chunkSize` (and the text is longer than one chunk)
the window never advances: no amount of fuel makes the source loop
return. -/
theorem chunkAux_stuck (text : List Char) (cs ov : Nat) (hco : cs ≤ ov)
    (hlen : cs < text.length) :
    ∀ fuel (start : Int), start ≤ 0 → chunkAux text cs ov start fuel = none := by
  intro fuel
  induction fuel with
  | zero => intro start _; rfl
  | succ fuel ih =>
    intro start hstart
    have hl : start < (text.length : Int) := by
      have : (0 : Int) < (text.length : Int) := by exact_mod_cast Nat.lt_of_le_of_lt (Nat.zero_le cs) hlen
      omega
    have hbr : ¬ (text.length : Int) ≤ min (start + (cs : Int)) (text.length : Int) := by
      have h1 : min (start + (cs : Int)) (text.length : Int) ≤ start + cs := min_le_left _ _
      have h2 : start + (cs : Int) < (text.length : Int) := by
        have : (cs : Int) < (text.length : Int) := by exact_mod_cast hlen
        omega
      omega
    have hnext : min (start + (cs : Int)) (text.length : Int) - (ov : Int) ≤ 0 := by
      have h1 : min (start + (cs : Int)) (text.length : Int) ≤ start + cs := min_le_left _ _
      have h2 : (cs : Int) ≤ (ov : Int) := by exact_mod_cast hco
      omega
    simp only [chunkAux, if_pos hl, if_neg hbr, ih _ hnext]
    rfl

theorem chunkText_reconstructs_core (text : List Char) (cs ov : Nat)
    (hne : text ≠ []) (hov : ov < cs) :
    ∃ out, chunkText text cs ov = some out ∧ reconstruct ov out = text := by
  have hlen : 0 < text.length := List.length_pos.mpr hne
  unfold chunkText
  rw [show (0 : Int) = ((0 : Nat) : Int) from rfl, chunkAux_nat_step, if_pos hlen]
  by_cases hbr : text.length ≤ min (0 + cs) text.length
  · have hmin : min (0 + cs) text.length = text.length := by
      have := Nat.min_le_right (0 + cs) text.length
      omega
    refine ⟨[(text.drop 0).take (min (0 + cs) text.length - 0)], by rw [if_pos hbr], ?_⟩
    simp only [reconstruct, List.map_nil, List.flatten_nil, List.append_nil, hmin,
      List.drop_zero, Nat.sub_zero]
    exact List.take_of_length_le le_rfl
  · have hcs : cs < text.length := by omega
    have hmin : min (0 + cs) text.length = cs := by omega
    have hcast : ((min (0 + cs) text.length : Nat) : Int) - (ov : Int) =
        ((cs - ov : Nat) : Int) := by
      rw [hmin]; omega
    obtain ⟨out, hout, hjoin⟩ := chunkAux_join text cs ov hov text.length (cs - ov)
      (by omega) (by omega) (by omega)
    refine ⟨(text.drop 0).take (min (0 + cs) text.length - 0) :: out,
      by rw [if_neg hbr, hcast, hout]; rfl, ?_⟩
    simp only [reconstruct, hjoin]
    have h1 : (text.drop 0).take (min (0 + cs) text.length - 0) = text.take cs := by
      simp [hmin]
    have h2 : cs - ov + ov = cs := by omega
    rw [h1, h2, List.take_append_drop]

/-- **C2**: for non-empty text and `overlap < chunkSize`, stripping the
first `overlap` characters of every chunk but the first and
concatenating reconstructs the text exactly. -/
theorem chunkText_reconstructs (text : List Char) (cs ov : Nat)
    (hne : text ≠ []) (hov : ov < cs) :
    ∃ out, chunkText text cs ov = some out ∧ reconstruct ov out = text :=
  chunkText_reconstructs_core text cs ov hne hov

/-- Witness for C2 at a concrete input. -/
theorem chunkText_reconstructs_witness :
    ∃ out, chunkText ('a' :: 'b' :: 'c' :: 'd' :: []) 3 1 = some out ∧
      reconstruct 1 out = ('a' :: 'b' :: 'c' :: 'd' :: []) :=
  chunkText_reconstructs ('a' :: 'b' :: 'c' :: 'd' :: []) 3 1 (by decide) (by decide)

/-- **C9**: with `overlap < chunkSize` the chunker terminates (the
standard fuel suffices), returning no chunks exactly for empty text and
at least one chunk for non-empty text; with `overlap ≥ chunkSize` and
text longer than one chunk the window never advances, so no amount of
fuel makes the loop return (the source does not validate this
configuration). -/
theorem chunkText_termination_behavior (text : List Char) (cs ov : Nat) :
    (ov < cs → ∃ out, chunkText text cs ov = some out ∧
      (text = [] → out = []) ∧ (text ≠ [] → out ≠ [])) ∧
    (cs ≤ ov → cs < text.length → ∀ fuel, chunkAux text cs ov 0 fuel = none) := by
  constructor
  · intro hov
    by_cases hne : text = []
    · subst hne
      exact ⟨[], rfl, fun _ => rfl, fun h => absurd rfl h⟩
    · obtain ⟨out, hout, hrec⟩ := chunkText_reconstructs_core text cs ov hne hov
      refine ⟨out, hout, fun h => absurd h hne, fun _ hc => ?_⟩
      subst hc
      exact hne (by rw [← hrec]; rfl)
  · intro hco hlen fuel
    exact chunkAux_stuck text cs ov hco hlen fuel 0 le_rfl

/-- Witness for C9: a terminating configuration and a stuck one. -/
theorem chunkText_termination_behavior_witness :
    (∃ out, chunkText ('a' :: 'b' :: 'c' :: []) 2 1 = some out ∧
      (('a' :: 'b' :: 'c' :: []) = ([] : List Char) → out = []) ∧
      (('a' :: 'b' :: 'c' :: []) ≠ ([] : List Char) → out ≠ [])) ∧
    chunkAux ('a' :: 'b' :: []) 1 2 0 37 = none :=
  ⟨(chunkText_termination_behavior ('a' :: 'b' :: 'c' :: []) 2 1).1 (by decide),
   (chunkText_termination_behavior ('a' :: 'b' :: []) 1 2).2 (by decide) (by decide) 37⟩

/-- Chunking any 2500-character text with the default parameters gives
exactly the three windows `[0,1000)`, `[800,1800)`, `[1600,2500)`. -/
theorem chunkText_len2500 (text : List Char) (h : text.length = 2500) :
    chunkText text 1000 200 =
      some [(text.drop 0).take 1000, (text.drop 800).take 1000,
        (text.drop 1600).take 900] := by
  unfold chunkText
  rw [h, show (0 : Int) = ((0 : Nat) : Int) from rfl, chunkAux_nat_step]
  have hk1 : (0 : Nat) < text.length := by omega
  have hmin1 : min (0 + 1000) text.length = 1000 := by omega
  have hbr1 : ¬ text.length ≤ min (0 + 1000) text.length := by omega
  rw [if_pos hk1, if_neg hbr1]
  have harg1 : ((min (0 + 1000) text.length : Nat) : Int) - ((200 : Nat) : Int) =
      ((800 : Nat) : Int) := by omega
  rw [harg1, show (2500 : Nat) = 2499 + 1 from by norm_num, chunkAux_nat_step]
  have hk2 : (800 : Nat) < text.length := by omega
  have hmin2 : min (800 + 1000) text.length = 1800 := by omega
  have hbr2 : ¬ text.length ≤ min (800 + 1000) text.length := by omega
  rw [if_pos hk2, if_neg hbr2]
  have harg2 : ((min (800 + 1000) text.length : Nat) : Int) - ((200 : Nat) : Int) =
      ((1600 : Nat) : Int) := by omega
  rw [harg2, show (2499 : Nat) = 2498 + 1 from by norm_num, chunkAux_nat_step]
  have hk3 : (1600 : Nat) < text.length := by omega
  have hmin3 : min (1600 + 1000) text.length = 2500 := by omega
  have hbr3 : text.length ≤ min (1600 + 1000) text.length := by omega
  rw [if_pos hk3, if_pos hbr3]
  simp only [Option.map_some']
  rw [hmin1, hmin2, hmin3]

/-- Counterexample for C3: a 2500-character text chunked with the
default size 1000 and overlap 200 yields 3 chunks, not the 4 the claim
states. -/
theorem chunkText_2500_not_four_chunks :
    ((chunkText (List.replicate 2500 'a') 1000 200).getD []).length = 3 ∧
    ((chunkText (List.replicate 2500 'a') 1000 200).getD []).length ≠ 4 := by
  have h := chunkText_len2500 (List.replicate 2500 'a') (by rw [List.length_replicate])
  have h3 : ((chunkText (List.replicate 2500 'a') 1000 200).getD []).length = 3 := by
    rw [h]
    rfl
  exact ⟨h3, by omega⟩

/-! ### Injectivity of the decimal rendering used in chunk ids

Chunk ids in the source are the template string
`` `${documentId}-chunk-${i}` ``; distinctness of the ids of different
chunks of one document reduces to injectivity of `Nat.repr`. -/

def digitVal (c : Char) : Nat := c.toNat - 48

def decodeDigits (l : List Char) : Nat :=
  l.foldl (fun a c => 10 * a + digitVal c) 0

theorem digitVal_digitChar : ∀ d < 10, digitVal (Nat.digitChar d) = d := by decide

theorem toDigitsCore_shift :
    ∀ n, ∀ fuel ds, n < fuel →
      Nat.toDigitsCore 10 fuel n ds = Nat.toDigitsCore 10 (n + 1) n [] ++ ds := by
  intro n
  induction n using Nat.strong_induction_on with
  | _ n ih =>
    intro fuel ds hfuel
    match fuel, hfuel with
    | f + 1, hfuel =>
      by_cases hn : n / 10 = 0
      · simp only [Nat.toDigitsCore, hn, if_pos]
        rfl
      · have hlt : n / 10 < n := Nat.div_lt_self (by omega) (by omega)
        have h1 : Nat.toDigitsCore 10 (f + 1) n ds =
            Nat.toDigitsCore 10 f (n / 10) (Nat.digitChar (n % 10) :: ds) := by
          simp only [Nat.toDigitsCore, hn, if_neg, ite_false]
        have h2 : Nat.toDigitsCore 10 (n + 1) n [] =
            Nat.toDigitsCore 10 n (n / 10) [Nat.digitChar (n % 10)] := by
          simp only [Nat.toDigitsCore, hn, if_neg, ite_false]
        rw [h1, h2, ih (n / 10) hlt f _ (by omega), ih (n / 10) hlt n _ (by omega),
          List.append_assoc]
        rfl

theorem decodeDigits_toDigits (n : Nat) :
    decodeDigits (Nat.toDigits 10 n) = n := by
  induction n using Nat.strong_induction_on with
  | _ n ih =>
    by_cases hn : n / 10 = 0
    · have hsmall : n < 10 := by omega
      have h1 : Nat.toDigits 10 n = [Nat.digitChar (n % 10)] := by
        simp only [Nat.toDigits, Nat.toDigitsCore, hn, if_pos]
      rw [h1]
      have := digitVal_digitChar (n % 10) (Nat.mod_lt n (by omega))
      simp only [decodeDigits, List.foldl_cons, List.foldl_nil, Nat.mul_zero, Nat.zero_add,
        this]
      omega
    · have hlt : n / 10 < n := Nat.div_lt_self (by omega) (by omega)
      have h1 : Nat.toDigits 10 n =
          Nat.toDigits 10 (n / 10) ++ [Nat.digitChar (n % 10)] := by
        show Nat.toDigitsCore 10 (n + 1) n [] = _
        have h2 : Nat.toDigitsCore 10 (n + 1) n [] =
            Nat.toDigitsCore 10 n (n / 10) [Nat.digitChar (n % 10)] := by
          simp only [Nat.toDigitsCore, hn, if_neg, ite_false]
        rw [h2, toDigitsCore_shift (n / 10) n _ (by omega)]
        rfl
      rw [h1]
      have hmod : digitVal (Nat.digitChar (n % 10)) = n % 10 :=
        digitVal_digitChar (n % 10) (Nat.mod_lt n (by omega))
      simp only [decodeDigits, List.foldl_append, List.foldl_cons, List.foldl_nil]
      have hihv : List.foldl (fun a c => 10 * a + digitVal c) 0 (Nat.toDigits 10 (n / 10)) =
          n / 10 := ih (n / 10) hlt
      rw [hihv, hmod]
      omega

theorem natRepr_injective (m n : Nat) (h : Nat.repr m = Nat.repr n) : m = n := by
  have hdata : Nat.toDigits 10 m = Nat.toDigits 10 n := congrArg String.data h
  calc m = decodeDigits (Nat.toDigits 10 m) := (decodeDigits_toDigits m).symm
    _ = decodeDigits (Nat.toDigits 10 n) := by rw [hdata]
    _ = n := decodeDigits_toDigits n

/-- Chunk id construction from the source template string. -/
def mkChunkId (documentId : String) (i : Nat) : String :=
  documentId ++ "-chunk-" ++ Nat.repr i

theorem mkChunkId_inj (d : String) (i j : Nat)
    (h : mkChunkId d i = mkChunkId d j) : i = j := by
  have hdata := congrArg String.data h
  simp only [mkChunkId, String.data_append] at hdata
  rw [List.append_assoc, List.append_assoc] at hdata
  have hrepr : (Nat.repr i).data = (Nat.repr j).data :=
    List.append_cancel_left (List.append_cancel_left hdata)
  exact natRepr_injective i j (by
    cases hi : Nat.repr i with
    | mk di =>
      cases hj : Nat.repr j with
      | mk dj =>
        rw [hi, hj] at hrepr
        exact congrArg String.mk (by simpa using hrepr))

/-! ### Data model of the vector store -/

/-- `DocumentData` from the source (the `similarity`/`chunkIndex`
fields are optional there). -/
structure DocumentData where
  id : String
  userId : String
  filename : String
  originalName : String
  filePath : String
  content : List Char
  fileType : String
  fileSize : Nat
  uploadedAt : String
  similarity : Option ℚ := none
  chunkIndex : Option Nat := none
deriving DecidableEq

/-- `DocumentChunk` from the source. -/
structure DocumentChunk where
  id : String
  documentId : String
  content : List Char
  chunkIndex : Nat
  startPosition : Nat
  endPosition : Nat
deriving DecidableEq

/-- `DocumentMetadata` from the source: slot counter, per-user document
lists, document records, chunk records, and the chunk-id → slot map. -/
structure DocumentMetadata where
  count : Nat
  userDocuments : List (String × List String)
  documents : List (String × DocumentData)
  chunks : List (String × DocumentChunk)
  chunkToIndex : List (String × Nat)
deriving DecidableEq

/-- The `hnswlib` index: inserted points (slot id, vector) in insertion
order, plus the soft-deleted slot ids (`markDelete`). -/
structure VIndex where
  points : List (Nat × List ℚ)
  deleted : List Nat
deriving DecidableEq

/-- The whole mutable world of the vector-store module: the in-memory
singletons plus the on-disk artifacts (last written metadata JSON and
binary index file, with write counters, and the saved document files). -/
structure VSState where
  meta : DocumentMetadata
  index : VIndex
  diskMeta : DocumentMetadata
  diskIndex : VIndex
  metaWrites : Nat
  indexWrites : Nat
  files : List String
deriving DecidableEq

/-- `documentVectorIndex.addPoint(embedding, label)`. -/
def addPoint (ix : VIndex) (v : List ℚ) (label : Nat) : VIndex :=
  { ix with points := ix.points ++ [(label, v)] }

/-- `documentVectorIndex.markDelete(label)` (soft delete). -/
def markDelete (ix : VIndex) (label : Nat) : VIndex :=
  { ix with deleted := ix.deleted ++ [label] }

/-- `saveDocumentMetadata()`: full rewrite of the metadata JSON. -/
def saveDocumentMetadata (s : VSState) : VSState :=
  { s with diskMeta := s.meta, metaWrites := s.metaWrites + 1 }

/-- `documentVectorIndex.writeIndex(documentIndexPath)`. -/
def writeIndex (s : VSState) : VSState :=
  { s with diskIndex := s.index, indexWrites := s.indexWrites + 1 }

/-! ### `storeDocument`

External effects are parameters: the parsed file content, the upload
timestamp, the file size reported by `fs.statSync`, the generated UUID,
and the embedder (returning `none` when `generateDocumentEmbedding`
throws, i.e. the model cannot initialize or returns no data). -/

/-- The document record built by `storeDocument` (file path modelled by
the saved file name `{documentId}{fileExtension}`). -/
def mkDocumentData (userId documentId originalName fileExtension uploadedAt : String)
    (content : List Char) (fileSize : Nat) : DocumentData :=
  { id := documentId
    userId := userId
    filename := documentId ++ fileExtension
    originalName := originalName
    filePath := documentId ++ fileExtension
    content := content
    fileType := fileExtension
    fileSize := fileSize
    uploadedAt := uploadedAt }

/-- The chunk record built for chunk `i` (`startPosition`/`endPosition`
use the source's approximate fixed stride of 800). -/
def mkDocumentChunk (documentId : String) (i : Nat) (c : List Char)
    (contentLen : Nat) : DocumentChunk :=
  { id := mkChunkId documentId i
    documentId := documentId
    content := c
    chunkIndex := i
    startPosition := i * 800
    endPosition := min ((i + 1) * 800) contentLen }

/-- The per-chunk loop of `storeDocument`: embed, `addPoint` at slot
`count`, record the chunk and its slot mapping, increment the counter.
An embedding failure throws out of the loop; `.error` carries the state
mutated so far (module-level state in the source). -/
def chunkLoop (embed : List Char → Option (List ℚ)) (documentId : String)
    (contentLen : Nat) : List (List Char) → Nat → VSState → Except VSState VSState
  | [], _, s => .ok s
  | c :: rest, i, s =>
    match embed c with
    | none => .error s
    | some v =>
      let chunkId := mkChunkId documentId i
      let chunk := mkDocumentChunk documentId i c contentLen
      let s' : VSState := { s with
        index := addPoint s.index v s.meta.count,
        meta := { s.meta with
          chunks := rset s.meta.chunks chunkId chunk,
          chunkToIndex := rset s.meta.chunkToIndex chunkId s.meta.count,
          count := s.meta.count + 1 } }
      chunkLoop embed documentId contentLen rest (i + 1) s'

/-- `storeDocument`.  On success returns the document id and the new
state; on an embedding failure the error is rethrown (`.error`), and
the partially mutated state is kept (the source mutates module-level
singletons in place).  The file has already been saved and parsed at
that point; `chunkText` is called with its default parameters, for
which the standard fuel always suffices. -/
def storeDocument (s : VSState) (userId documentId originalName fileExtension
    uploadedAt : String) (content : List Char) (fileSize : Nat)
    (embed : List Char → Option (List ℚ)) : Except VSState (String × VSState) :=
  let doc := mkDocumentData userId documentId originalName fileExtension
    uploadedAt content fileSize
  let s1 : VSState := { s with
    files := (documentId ++ fileExtension) :: s.files,
    meta := { s.meta with documents := rset s.meta.documents documentId doc } }
  let chunks := (chunkText content 1000 200).getD []
  match chunkLoop embed documentId content.length chunks 0 s1 with
  | .error s2 => .error s2
  | .ok s2 =>
    let s3 : VSState := { s2 with
      meta := { s2.meta with
        userDocuments := rset s2.meta.userDocuments userId
          ((rget s2.meta.userDocuments userId).getD [] ++ [documentId]) } }
    let s4 := saveDocumentMetadata s3
    let s5 := if s4.meta.count % 10 = 0 then writeIndex s4 else s4
    .ok (documentId, s5)

/-! ### `deleteDocument` -/

/-- One iteration of the chunk-removal loop of `deleteDocument`: look
up the chunk's slot; when it is a number, soft-delete it in the index
and remove the slot mapping; remove the chunk record either way. -/
def delChunkStep (t : VSState) (chunk : DocumentChunk) : VSState :=
  match rget t.meta.chunkToIndex chunk.id with
  | some vectorIndex =>
    { t with
      index := markDelete t.index vectorIndex,
      meta := { t.meta with
        chunkToIndex := rdel t.meta.chunkToIndex chunk.id,
        chunks := rdel t.meta.chunks chunk.id } }
  | none =>
    { t with meta := { t.meta with chunks := rdel t.meta.chunks chunk.id } }

/-- `deleteDocument(userId, documentId)`: fails closed (returns
`false`, state untouched) when the document is missing or owned by
another user; otherwise removes the file, soft-deletes each chunk's
slot, purges chunk and document metadata, filters the user's list, and
persists metadata and index. -/
def deleteDocument (s : VSState) (userId documentId : String) : Bool × VSState :=
  match rget s.meta.documents documentId with
  | none => (false, s)
  | some document =>
    if document.userId ≠ userId then (false, s)
    else
      let s1 : VSState := { s with files := s.files.filter (fun f => f ≠ document.filePath) }
      let documentChunks := (s1.meta.chunks.map (fun p => p.2)).filter
        (fun chunk => chunk.documentId = documentId)
      let s2 := documentChunks.foldl delChunkStep s1
      let s3 : VSState := { s2 with
        meta := { s2.meta with documents := rdel s2.meta.documents documentId } }
      let s4 : VSState := { s3 with
        meta := { s3.meta with
          userDocuments :=
            match rget s3.meta.userDocuments userId with
            | some l => rset s3.meta.userDocuments userId
                (l.filter (fun idd => idd ≠ documentId))
            | none => s3.meta.userDocuments } }
      let s5 := saveDocumentMetadata s4
      let s6 := writeIndex s5
      (true, s6)

/-! ### `searchDocuments` -/

/-- Aggregated per-document score entry of `searchDocuments`. -/
structure DocScore where
  document : DocumentData
  maxSimilarity : ℚ
  chunkCount : Nat
deriving DecidableEq

/-- Resolution of one kNN hit: reverse-lookup of the slot id through
`chunkToIndex` (first key in insertion order whose slot equals the hit,
as `Object.keys(..).find(..)` does), then the chunk record, then the
parent document, which must belong to the requesting user.  The
`chunkId = ""` case mirrors JS truthiness of `if (chunkId && ...)`. -/
def resolveHit (meta : DocumentMetadata) (userId : String) (vectorIndex : Nat) :
    Option (String × DocumentData) :=
  match (rkeys meta.chunkToIndex).find?
    (fun idd => rget meta.chunkToIndex idd == some vectorIndex) with
  | none => none
  | some chunkId =>
    if chunkId = "" then none
    else
      match rget meta.chunks chunkId with
      | none => none
      | some chunk =>
        match rget meta.documents chunk.documentId with
        | none => none
        | some document =>
          if document.userId = userId then some (chunk.documentId, document)
          else none

/-- One iteration of the aggregation loop of `searchDocuments` over a
kNN hit `(vectorIndex, distance)`; `similarity = 1 - distance`. -/
def processHit (meta : DocumentMetadata) (userId : String)
    (scores : List (String × DocScore)) (hit : Nat × ℚ) : List (String × DocScore) :=
  let similarity : ℚ := 1 - hit.2
  match resolveHit meta userId hit.1 with
  | none => scores
  | some dd =>
    match rget scores dd.1 with
    | none => rset scores dd.1 ⟨dd.2, similarity, 1⟩
    | some e => rset scores dd.1 ⟨e.document, max e.maxSimilarity similarity, e.chunkCount + 1⟩

/-- The sort key `(x.similarity || 0)` of the final comparator. -/
def simKey (d : DocumentData) : ℚ := d.similarity.getD 0

/-- Stable insertion into a descending-sorted list (a new element goes
after all elements with an equal or larger key, as JS stable sort
leaves ties in original order). -/
def insertDesc (x : DocumentData) : List DocumentData → List DocumentData
  | [] => [x]
  | y :: ys => if simKey x ≤ simKey y then y :: insertDesc x ys else x :: y :: ys

/-- The sort `(a, b) => (b.similarity || 0) - (a.similarity || 0)`. -/
def sortDesc : List DocumentData → List DocumentData
  | [] => []
  | x :: xs => insertDesc x (sortDesc xs)

/-- The combined ranking score `maxSimilarity + chunkCount * 0.1`. -/
def combinedScore (maxSimilarity : ℚ) (chunkCount : Nat) : ℚ :=
  maxSimilarity + chunkCount * (1 / 10)

/-- Body of `searchDocuments` after a successful query embedding and
kNN search: aggregate hits by document, attach the combined score as
the reported `similarity`, sort descending, truncate to `limit`. -/
def searchCore (meta : DocumentMetadata) (userId : String)
    (hits : List (Nat × ℚ)) (limit : Nat) : List DocumentData :=
  let scores := hits.foldl (processHit meta userId) []
  let results := scores.map (fun p =>
    { p.2.document with similarity := some (combinedScore p.2.maxSimilarity p.2.chunkCount) })
  (sortDesc results).take limit

/-- `searchDocuments(userId, query, limit = 5)`.  `knn` is the outcome
of the external embedding + `searchKnn(queryEmbedding, limit * 3)`
calls: `none` models a thrown embedding/search error, which the
source catches, logs, and converts into an empty result (it never
rethrows to the caller). -/
def searchDocuments (meta : DocumentMetadata) (userId : String)
    (knn : Option (List (Nat × ℚ))) (limit : Nat) : List DocumentData :=
  match knn with
  | none => []
  | some hits => searchCore meta userId hits limit

/-! ### Operations and traces -/

/-- One call into the vector-store service, with its external inputs
(parsed content, UUID, timestamp, embedder outcome, kNN outcome). -/
inductive Op where
  | store (userId documentId originalName fileExtension uploadedAt : String)
      (content : List Char) (fileSize : Nat) (embed : List Char → Option (List ℚ))
  | search (userId : String) (knn : Option (List (Nat × ℚ))) (limit : Nat)
  | list (userId : String)
  | del (userId documentId : String)

/-- State transition of one operation.  `search` and `list` only read
the module state (`listUserDocuments` merely maps/sorts records), so
they leave it unchanged; a failed `store` keeps its partial mutations
(module-level singletons in the source). -/
def step (s : VSState) : Op → VSState
  | .store u d o e up c fs em =>
    match storeDocument s u d o e up c fs em with
    | .ok r => r.2
    | .error s2 => s2
  | .search _ _ _ => s
  | .list _ => s
  | .del u d => (deleteDocument s u d).2

/-- A sequence of service calls. -/
def run (s : VSState) (ops : List Op) : VSState := ops.foldl step s

/-- The bookkeeping invariant of the metadata store: chunk records and
slot mappings have the same keys (in the same insertion order), keys
are unique, assigned slot ids are pairwise distinct, and every
assigned slot id is below the counter. -/
def MetaInv (m : DocumentMetadata) : Prop :=
  rkeys m.chunks = rkeys m.chunkToIndex ∧
  (rkeys m.chunkToIndex).Nodup ∧
  (m.chunkToIndex.map (fun p => p.2)).Nodup ∧
  ∀ p ∈ m.chunkToIndex, p.2 < m.count

instance (m : DocumentMetadata) : Decidable (MetaInv m) := by
  unfold MetaInv
  infer_instance

/-! ### Generic record-entry lemmas -/

theorem rget_mem {β : Type} (r : List (String × β)) (k : String) (v : β)
    (h : rget r k = some v) : (k, v) ∈ r := by
  induction r with
  | nil => simp [rget] at h
  | cons p r ih =>
    by_cases hp : p.1 = k
    · simp only [rget, if_pos hp] at h
      cases h
      exact List.mem_cons.mpr (Or.inl (by rw [← hp]))
    · simp only [rget, if_neg hp] at h
      exact List.mem_cons_of_mem _ (ih h)

theorem mem_rset {β : Type} (r : List (String × β)) (k : String) (v : β)
    (q : String × β) (h : q ∈ rset r k v) : q ∈ r ∨ q = (k, v) := by
  induction r with
  | nil => simp [rset] at h; right; exact h
  | cons p r ih =>
    by_cases hp : p.1 = k
    · simp only [rset, if_pos hp] at h
      rcases List.mem_cons.mp h with h | h
      · right; exact h
      · left; exact List.mem_cons_of_mem _ h
    · simp only [rset, if_neg hp] at h
      rcases List.mem_cons.mp h with h | h
      · left; exact h ▸ List.mem_cons_self _ _
      · rcases ih h with h | h
        · left; exact List.mem_cons_of_mem _ h
        · right; exact h

/-! ### Claim C5: delete fails closed -/

/-- **C5**: when the document record is absent, or present with a
different owner, `deleteDocument` returns `false` and leaves the whole
state (metadata, counter, index, disk files) unchanged. -/
theorem deleteDocument_fails_closed (s : VSState) (userId documentId : String)
    (h : rget s.meta.documents documentId = none ∨
      ∃ doc, rget s.meta.documents documentId = some doc ∧ doc.userId ≠ userId) :
    deleteDocument s userId documentId = (false, s) := by
  rcases h with h | ⟨doc, hdoc, hne⟩
  · simp [deleteDocument, h]
  · simp [deleteDocument, hdoc, hne]

/-- Sample document and state used by concrete witnesses. -/
def sampleDoc : DocumentData :=
  mkDocumentData "alice" "doc1" "a.txt" ".txt" "2024-01-01" ('h' :: 'i' :: []) 2

def sampleState : VSState :=
  { meta :=
      { count := 1
        userDocuments := [("alice", ["doc1"])]
        documents := [("doc1", sampleDoc)]
        chunks := [("doc1-chunk-0", mkDocumentChunk "doc1" 0 ('h' :: 'i' :: []) 2)]
        chunkToIndex := [("doc1-chunk-0", 0)] }
    index := { points := [(0, [])], deleted := [] }
    diskMeta :=
      { count := 0, userDocuments := [], documents := [], chunks := [], chunkToIndex := [] }
    diskIndex := { points := [], deleted := [] }
    metaWrites := 0
    indexWrites := 0
    files := ["doc1.txt"] }

/-- Witness for C5: deleting another user's document is refused and
changes nothing. -/
theorem deleteDocument_fails_closed_witness :
    deleteDocument sampleState "bob" "doc1" = (false, sampleState) :=
  deleteDocument_fails_closed sampleState "bob" "doc1"
    (Or.inr ⟨sampleDoc, by decide, by decide⟩)

/-! ### Claim C7: search degrades to an empty list on embedding failure -/

/-- **C7**: if generating the query embedding fails (the model cannot
initialize or returns no data, modelled by `knn = none`), search
returns `[]`; being a total function of the failure outcome, it never
propagates the error to its caller. -/
theorem searchDocuments_embedding_failure (meta : DocumentMetadata)
    (userId : String) (limit : Nat) :
    searchDocuments meta userId none limit = [] := rfl

/-! ### Claim C1: per-user isolation and result bound -/

theorem mem_insertDesc (x y : DocumentData) (l : List DocumentData) :
    y ∈ insertDesc x l ↔ y = x ∨ y ∈ l := by
  induction l with
  | nil => simp [insertDesc]
  | cons z l ih =>
    by_cases hz : simKey x ≤ simKey z
    · simp only [insertDesc, if_pos hz, List.mem_cons, ih]
      tauto
    · simp only [insertDesc, if_neg hz, List.mem_cons]

theorem mem_sortDesc (y : DocumentData) (l : List DocumentData) :
    y ∈ sortDesc l ↔ y ∈ l := by
  induction l with
  | nil => simp [sortDesc]
  | cons x l ih =>
    simp only [sortDesc, mem_insertDesc, List.mem_cons, ih]

theorem resolveHit_userId (meta : DocumentMetadata) (userId : String)
    (v : Nat) (dd : String × DocumentData)
    (h : resolveHit meta userId v = some dd) : dd.2.userId = userId := by
  unfold resolveHit at h
  rcases hf : (rkeys meta.chunkToIndex).find?
      (fun idd => rget meta.chunkToIndex idd == some v) with _ | chunkId
  · simp only [hf] at h
    exact Option.noConfusion h
  · simp only [hf] at h
    by_cases hcid : chunkId = ""
    · simp only [if_pos hcid] at h
      exact Option.noConfusion h
    · simp only [if_neg hcid] at h
      rcases hch : rget meta.chunks chunkId with _ | chunk
      · simp only [hch] at h
        exact Option.noConfusion h
      · simp only [hch] at h
        rcases hdoc : rget meta.documents chunk.documentId with _ | document
        · simp only [hdoc] at h
          exact Option.noConfusion h
        · simp only [hdoc] at h
          by_cases hu : document.userId = userId
          · simp only [if_pos hu, Option.some.injEq] at h
            rw [← h]
            exact hu
          · simp only [if_neg hu] at h
            exact Option.noConfusion h

theorem scores_userId (meta : DocumentMetadata) (userId : String) :
    ∀ (hits : List (Nat × ℚ)) (acc : List (String × DocScore)),
      (∀ p ∈ acc, (p : String × DocScore).2.document.userId = userId) →
      ∀ p ∈ hits.foldl (processHit meta userId) acc, p.2.document.userId = userId := by
  intro hits
  induction hits with
  | nil => intro acc hacc p hp; exact hacc p hp
  | cons hit hits ih =>
    intro acc hacc p hp
    refine ih (processHit meta userId acc hit) ?_ p hp
    intro q hq
    unfold processHit at hq
    rcases hrh : resolveHit meta userId hit.1 with _ | dd
    · simp only [hrh] at hq; exact hacc q hq
    · simp only [hrh] at hq
      have hdd := resolveHit_userId meta userId hit.1 dd hrh
      rcases hsc : rget acc dd.1 with _ | e
      · simp only [hsc] at hq
        rcases mem_rset _ _ _ q hq with h | h
        · exact hacc q h
        · rw [h]; exact hdd
      · simp only [hsc] at hq
        rcases mem_rset _ _ _ q hq with h | h
        · exact hacc q h
        · rw [h]
          exact hacc (dd.1, e) (rget_mem _ _ _ hsc)

/-- **C1**: every document returned by `searchDocuments(u, ...)` is
owned by `u` — documents of other users are filtered out regardless of
how near their chunk embeddings are — and at most `limit` documents
are returned. -/
theorem searchDocuments_isolation (meta : DocumentMetadata) (userId : String)
    (knn : Option (List (Nat × ℚ))) (limit : Nat) (d : DocumentData)
    (hd : d ∈ searchDocuments meta userId knn limit) :
    d.userId = userId ∧ (searchDocuments meta userId knn limit).length ≤ limit := by
  constructor
  · cases knn with
    | none => exact absurd hd (by simp [searchDocuments])
    | some hits =>
      simp only [searchDocuments, searchCore] at hd
      have hd1 := List.mem_of_mem_take hd
      rw [mem_sortDesc] at hd1
      rcases List.mem_map.mp hd1 with ⟨p, hp, hpd⟩
      have := scores_userId meta userId hits [] (by simp) p hp
      rw [← hpd]
      exact this
  · cases knn with
    | none => simp [searchDocuments]
    | some hits =>
      simp only [searchDocuments, searchCore]
      exact List.length_take_le _ _

/-- Witness for C1: a concrete search returning one (owned) document
within the limit. -/
theorem searchDocuments_isolation_witness :
    ({ sampleDoc with similarity := some ((3 : ℚ) / 5) } : DocumentData).userId = "alice" ∧
      (searchDocuments sampleState.meta "alice" (some [(0, 1/2)]) 5).length ≤ 5 :=
  searchDocuments_isolation sampleState.meta "alice" (some [(0, 1/2)]) 5
    { sampleDoc with similarity := some ((3 : ℚ) / 5) }
    (by
      have hres : searchDocuments sampleState.meta "alice" (some [(0, 1/2)]) 5 =
          [{ sampleDoc with similarity := some ((3 : ℚ) / 5) }] := by
        norm_num [searchDocuments, searchCore, processHit, resolveHit, sampleState,
          sampleDoc, mkDocumentData, rget, rkeys, rset, sortDesc, insertDesc,
          combinedScore, simKey, mkDocumentChunk, List.find?]
      rw [hres]
      exact List.mem_singleton.mpr rfl)

/-! ### Claim C4: combined score, ordering, truncation -/

/-- The hits of the kNN result that resolve (for this user) to the
document `docId` — its "matching chunks". -/
def docHits (meta : DocumentMetadata) (userId docId : String)
    (hits : List (Nat × ℚ)) : List (Nat × ℚ) :=
  hits.filter (fun h =>
    decide ((resolveHit meta userId h.1).map (fun dd => dd.1) = some docId))

/-- Maximum of a list of similarities with a given base (left fold, as
the aggregation loop computes it). -/
def listMax (a : ℚ) (l : List ℚ) : ℚ := l.foldl max a

/-- Similarities (`1 - distance`) of a list of hits. -/
def hitSims (l : List (Nat × ℚ)) : List ℚ := l.map (fun h => 1 - h.2)

/-- Replay of the aggregation loop on a single document's score entry. -/
def applyHits (meta : DocumentMetadata) (userId : String) :
    Option DocScore → List (Nat × ℚ) → Option DocScore
  | eo, [] => eo
  | none, h :: hs =>
    applyHits meta userId
      ((resolveHit meta userId h.1).map (fun dd => ⟨dd.2, 1 - h.2, 1⟩)) hs
  | some e, h :: hs =>
    applyHits meta userId
      (some ⟨e.document, max e.maxSimilarity (1 - h.2), e.chunkCount + 1⟩) hs

theorem foldl_processHit_rget (meta : DocumentMetadata) (userId docId : String) :
    ∀ (hits : List (Nat × ℚ)) (acc : List (String × DocScore)),
      rget (hits.foldl (processHit meta userId) acc) docId =
        applyHits meta userId (rget acc docId) (docHits meta userId docId hits) := by
  intro hits
  induction hits with
  | nil =>
    intro acc
    rw [List.foldl_nil]
    rcases rget acc docId with _ | e <;> rfl
  | cons h hits ih =>
    intro acc
    rw [List.foldl_cons, ih]
    rcases hr : resolveHit meta userId h.1 with _ | dd
    · have hacc : processHit meta userId acc h = acc := by
        simp [processHit, hr]
      have hdh : docHits meta userId docId (h :: hits) =
          docHits meta userId docId hits := by
        simp [docHits, hr]
      rw [hacc, hdh]
    · by_cases hid : dd.1 = docId
      · have hdh : docHits meta userId docId (h :: hits) =
            h :: docHits meta userId docId hits := by
          simp [docHits, hr, hid]
        rw [hdh]
        rcases hsc : rget acc docId with _ | e
        · have hacc : rget (processHit meta userId acc h) docId =
              some ⟨dd.2, 1 - h.2, 1⟩ := by
            simp only [processHit, hr, hid, hsc]
            exact rget_rset_self _ _ _
          rw [hacc]
          rw [show applyHits meta userId none (h :: docHits meta userId docId hits) =
            applyHits meta userId
              ((resolveHit meta userId h.1).map (fun dd => ⟨dd.2, 1 - h.2, 1⟩))
              (docHits meta userId docId hits) from rfl]
          rw [hr, Option.map_some']
        · have hacc : rget (processHit meta userId acc h) docId =
              some ⟨e.document, max e.maxSimilarity (1 - h.2), e.chunkCount + 1⟩ := by
            simp only [processHit, hr, hid, hsc]
            exact rget_rset_self _ _ _
          rw [hacc]
          rfl
      · have hacc : rget (processHit meta userId acc h) docId = rget acc docId := by
          simp only [processHit, hr]
          rcases hsc : rget acc dd.1 with _ | e
          · simp only [hsc]
            exact rget_rset_ne _ _ _ _ hid
          · simp only [hsc]
            exact rget_rset_ne _ _ _ _ hid
        have hdh : docHits meta userId docId (h :: hits) =
            docHits meta userId docId hits := by
          simp [docHits, hr, hid]
        rw [hacc, hdh]

theorem applyHits_some (meta : DocumentMetadata) (userId : String) :
    ∀ (hs : List (Nat × ℚ)) (e : DocScore),
      applyHits meta userId (some e) hs =
        some ⟨e.document, listMax e.maxSimilarity (hitSims hs),
          e.chunkCount + hs.length⟩ := by
  intro hs
  induction hs with
  | nil => intro e; simp [applyHits, listMax, hitSims]
  | cons h hs ih =>
    intro e
    rw [show applyHits meta userId (some e) (h :: hs) =
      applyHits meta userId
        (some ⟨e.document, max e.maxSimilarity (1 - h.2), e.chunkCount + 1⟩) hs from rfl]
    rw [ih]
    simp only [hitSims, List.map_cons, listMax, List.foldl_cons, List.length_cons]
    congr 1
    congr 1
    omega

theorem applyHits_none_cons (meta : DocumentMetadata) (userId : String)
    (h1 : Nat × ℚ) (rest : List (Nat × ℚ)) (dd : String × DocumentData)
    (hr : resolveHit meta userId h1.1 = some dd) :
    applyHits meta userId none (h1 :: rest) =
      some ⟨dd.2, listMax (1 - h1.2) (hitSims rest), 1 + rest.length⟩ := by
  rw [show applyHits meta userId none (h1 :: rest) =
    applyHits meta userId
      ((resolveHit meta userId h1.1).map (fun dd => ⟨dd.2, 1 - h1.2, 1⟩)) rest from rfl]
  rw [hr, Option.map_some', applyHits_some]

theorem mem_docHits_resolves (meta : DocumentMetadata) (userId docId : String)
    (hits : List (Nat × ℚ)) (h : Nat × ℚ)
    (hmem : h ∈ docHits meta userId docId hits) :
    ∃ doc, resolveHit meta userId h.1 = some (docId, doc) := by
  have := (List.mem_filter.mp hmem).2
  rw [decide_eq_true_eq] at this
  rcases hr : resolveHit meta userId h.1 with _ | dd
  · rw [hr] at this; exact absurd this (by simp)
  · rw [hr, Option.map_some', Option.some.injEq] at this
    exact ⟨dd.2, by rw [← this]⟩

theorem rkeys_cons {β : Type} (p : String × β) (r : List (String × β)) :
    rkeys (p :: r) = p.1 :: rkeys r := rfl

/-! Key uniqueness of the aggregation map. -/

theorem rget_none_not_mem_keys {β : Type} (r : List (String × β)) (k : String)
    (h : rget r k = none) : k ∉ rkeys r := by
  induction r with
  | nil => simp [rkeys]
  | cons p r ih =>
    by_cases hp : p.1 = k
    · simp [rget, hp] at h
    · simp only [rget, if_neg hp] at h
      simp only [rkeys, List.map_cons, List.mem_cons]
      rintro (hc | hc)
      · exact hp hc.symm
      · exact ih h hc

theorem rkeys_rset_of_none {β : Type} (r : List (String × β)) (k : String) (v : β)
    (h : rget r k = none) : rkeys (rset r k v) = rkeys r ++ [k] := by
  induction r with
  | nil => simp [rset, rkeys]
  | cons p r ih =>
    by_cases hp : p.1 = k
    · simp [rget, hp] at h
    · simp only [rget, if_neg hp] at h
      rw [show rset (p :: r) k v = p :: rset r k v from by simp [rset, hp],
        rkeys_cons, ih h, rkeys_cons, List.cons_append]

theorem rkeys_rset_of_some {β : Type} (r : List (String × β)) (k : String) (v : β)
    (h : ¬ rget r k = none) : rkeys (rset r k v) = rkeys r := by
  induction r with
  | nil => simp [rget] at h
  | cons p r ih =>
    by_cases hp : p.1 = k
    · simp [rset, if_pos hp, rkeys, hp]
    · simp only [rget, if_neg hp] at h
      rw [show rset (p :: r) k v = p :: rset r k v from by simp [rset, hp],
        rkeys_cons, ih h, rkeys_cons]

theorem rkeys_rset_nodup {β : Type} (r : List (String × β)) (k : String) (v : β)
    (h : (rkeys r).Nodup) : (rkeys (rset r k v)).Nodup := by
  rcases hk : rget r k with _ | w
  · rw [rkeys_rset_of_none r k v hk]
    have := rget_none_not_mem_keys r k hk
    simp [List.nodup_append, h, this]
  · rw [rkeys_rset_of_some r k v (by rw [hk]; simp)]
    exact h

theorem scores_keys_nodup (meta : DocumentMetadata) (userId : String) :
    ∀ (hits : List (Nat × ℚ)) (acc : List (String × DocScore)),
      (rkeys acc).Nodup →
      (rkeys (hits.foldl (processHit meta userId) acc)).Nodup := by
  intro hits
  induction hits with
  | nil => intro acc hacc; exact hacc
  | cons h hits ih =>
    intro acc hacc
    refine ih _ ?_
    rcases hr : resolveHit meta userId h.1 with _ | dd
    · simpa only [processHit, hr] using hacc
    · simp only [processHit, hr]
      rcases hsc : rget acc dd.1 with _ | e
      · simp only [hsc]
        exact rkeys_rset_nodup _ _ _ hacc
      · simp only [hsc]
        exact rkeys_rset_nodup _ _ _ hacc

theorem rget_of_mem_nodup {β : Type} (r : List (String × β)) (k : String) (v : β)
    (hnd : (rkeys r).Nodup) (hmem : (k, v) ∈ r) : rget r k = some v := by
  induction r with
  | nil => simp at hmem
  | cons p r ih =>
    rcases List.mem_cons.mp hmem with h | h
    · rw [← h]
      simp [rget]
    · have hk : k ∈ rkeys r := List.mem_map_of_mem (fun q => q.1) h
      have hp : p.1 ≠ k := by
        intro hc
        rw [rkeys, List.map_cons] at hnd
        exact (List.nodup_cons.mp hnd).1 (hc ▸ hk)
      simp only [rget, if_neg hp]
      exact ih (by rw [rkeys, List.map_cons] at hnd; exact (List.nodup_cons.mp hnd).2) h

theorem insertDesc_sorted (x : DocumentData) (l : List DocumentData)
    (hl : l.Pairwise (fun a b => simKey b ≤ simKey a)) :
    (insertDesc x l).Pairwise (fun a b => simKey b ≤ simKey a) := by
  induction l with
  | nil => simp [insertDesc]
  | cons y ys ih =>
    rcases List.pairwise_cons.mp hl with ⟨hy, hys⟩
    by_cases hx : simKey x ≤ simKey y
    · rw [insertDesc, if_pos hx]
      refine List.pairwise_cons.mpr ⟨?_, ih hys⟩
      intro z hz
      rcases (mem_insertDesc x z ys).mp hz with hzx | hzy
      · rw [hzx]; exact hx
      · exact hy z hzy
    · rw [insertDesc, if_neg hx]
      refine List.pairwise_cons.mpr ⟨?_, hl⟩
      intro z hz
      rcases List.mem_cons.mp hz with hzy | hzy
      · rw [hzy]
        exact le_of_lt (lt_of_not_le hx)
      · exact le_trans (hy z hzy) (le_of_lt (lt_of_not_le hx))

theorem sortDesc_sorted (l : List DocumentData) :
    (sortDesc l).Pairwise (fun a b => simKey b ≤ simKey a) := by
  induction l with
  | nil => simp [sortDesc]
  | cons x l ih => exact insertDesc_sorted x (sortDesc l) ih

/-- **C4**: every returned document's reported similarity is the
maximum of `1 - distance` over its matching chunks plus `0.1` per
matching chunk; the output is sorted by descending combined score and
truncated to `limit`; and the combined score is monotone in each
argument. -/
theorem searchDocuments_score_spec (meta : DocumentMetadata) (userId : String)
    (hits : List (Nat × ℚ)) (limit : Nat) (d : DocumentData)
    (hd : d ∈ searchCore meta userId hits limit) :
    (∃ docId doc h1 rest,
      docHits meta userId docId hits = h1 :: rest ∧
      resolveHit meta userId h1.1 = some (docId, doc) ∧
      d = { doc with similarity := some (combinedScore (listMax (1 - h1.2) (hitSims rest)) (rest.length + 1)) }) ∧
    (searchCore meta userId hits limit).Pairwise (fun a b => simKey b ≤ simKey a) ∧
    (searchCore meta userId hits limit).length ≤ limit ∧
    (∀ (m : ℚ) (c1 c2 : Nat), c1 ≤ c2 → combinedScore m c1 ≤ combinedScore m c2) ∧
    (∀ (m1 m2 : ℚ) (c : Nat), m1 ≤ m2 → combinedScore m1 c ≤ combinedScore m2 c) := by
  refine ⟨?_, ?_, ?_, ?_, ?_⟩
  · simp only [searchCore] at hd
    have hd1 := List.mem_of_mem_take hd
    rw [mem_sortDesc] at hd1
    rcases List.mem_map.mp hd1 with ⟨p, hp, hpd⟩
    have hnd := scores_keys_nodup meta userId hits [] (by simp [rkeys])
    have hget : rget (hits.foldl (processHit meta userId) []) p.1 = some p.2 :=
      rget_of_mem_nodup _ _ _ hnd hp
    rw [foldl_processHit_rget meta userId p.1 hits []] at hget
    simp only [rget] at hget
    rcases hdh : docHits meta userId p.1 hits with _ | ⟨h1, rest⟩
    · rw [hdh] at hget
      exact absurd hget (by simp [applyHits, rget])
    · rw [hdh] at hget
      have hh1 : h1 ∈ docHits meta userId p.1 hits := by
        rw [hdh]; exact List.mem_cons_self _ _
      rcases mem_docHits_resolves meta userId p.1 hits h1 hh1 with ⟨doc, hres⟩
      rw [applyHits_none_cons meta userId h1 rest (p.1, doc) hres] at hget
      have hget2 : p.2 = ⟨doc, listMax (1 - h1.2) (hitSims rest), 1 + rest.length⟩ := by
        have := hget
        simp only [rget] at this
        exact (Option.some.injEq _ _).mp this.symm
      refine ⟨p.1, doc, h1, rest, hdh, hres, ?_⟩
      rw [← hpd, hget2]
      have : 1 + rest.length = rest.length + 1 := by omega
      rw [this]
  · simp only [searchCore]
    exact (sortDesc_sorted _).sublist (List.take_sublist _ _)
  · simp only [searchCore]
    exact List.length_take_le _ _
  · intro m c1 c2 hc
    unfold combinedScore
    have : (c1 : ℚ) ≤ (c2 : ℚ) := by exact_mod_cast hc
    nlinarith
  · intro m1 m2 c hm
    unfold combinedScore
    linarith

/-- Witness for C4 at a concrete search. -/
theorem searchDocuments_score_spec_witness :
    (∃ docId doc h1 rest,
      docHits sampleState.meta "alice" docId [((0 : Nat), (1/4 : ℚ))] = h1 :: rest ∧
      resolveHit sampleState.meta "alice" h1.1 = some (docId, doc) ∧
      ({ sampleDoc with similarity := some ((17 : ℚ)/20) } : DocumentData) = { doc with similarity := some (combinedScore (listMax (1 - h1.2) (hitSims rest)) (rest.length + 1)) }) ∧
    (searchCore sampleState.meta "alice" [((0 : Nat), (1/4 : ℚ))] 5).Pairwise
      (fun a b => simKey b ≤ simKey a) ∧
    (searchCore sampleState.meta "alice" [((0 : Nat), (1/4 : ℚ))] 5).length ≤ 5 ∧
    (∀ (m : ℚ) (c1 c2 : Nat), c1 ≤ c2 → combinedScore m c1 ≤ combinedScore m c2) ∧
    (∀ (m1 m2 : ℚ) (c : Nat), m1 ≤ m2 → combinedScore m1 c ≤ combinedScore m2 c) :=
  searchDocuments_score_spec sampleState.meta "alice" [((0 : Nat), (1/4 : ℚ))] 5
    { sampleDoc with similarity := some ((17 : ℚ)/20) }
    (by
      have hres : searchCore sampleState.meta "alice" [((0 : Nat), (1/4 : ℚ))] 5 =
          [{ sampleDoc with similarity := some ((17 : ℚ)/20) }] := by
        norm_num [searchCore, processHit, resolveHit, sampleState, sampleDoc,
          mkDocumentData, rget, rkeys, rset, sortDesc, insertDesc, combinedScore,
          simKey, mkDocumentChunk, List.find?]
      rw [hres]
      exact List.mem_singleton.mpr rfl)

/-! ### Preservation of the bookkeeping invariant -/

theorem rget_eq_none_iff {β : Type} (r : List (String × β)) (k : String) :
    rget r k = none ↔ k ∉ rkeys r := by
  induction r with
  | nil => simp [rget, rkeys]
  | cons p r ih =>
    by_cases hp : p.1 = k
    · simp [rget, hp, rkeys_cons]
    · have hk : ¬ k = p.1 := fun hc => hp hc.symm
      simp [rget, hp, rkeys_cons, ih, hk]

theorem rdel_of_not_mem {β : Type} (r : List (String × β)) (k : String)
    (h : k ∉ rkeys r) : rdel r k = r := by
  induction r with
  | nil => rfl
  | cons p r ih =>
    rw [rkeys_cons, List.mem_cons] at h
    push_neg at h
    have hp : ¬ p.1 = k := fun hc => h.1 hc.symm
    rw [rdel, if_neg hp, ih h.2]

theorem rdel_sublist {β : Type} (r : List (String × β)) (k : String) :
    (rdel r k).Sublist r := by
  induction r with
  | nil => exact List.Sublist.refl _
  | cons p r ih =>
    by_cases hp : p.1 = k
    · rw [rdel, if_pos hp]
      exact ih.cons _
    · rw [rdel, if_neg hp]
      exact ih.cons₂ _

theorem rkeys_rdel {β : Type} (r : List (String × β)) (k : String) :
    rkeys (rdel r k) = (rkeys r).filter (fun x => !(x == k)) := by
  induction r with
  | nil => rfl
  | cons p r ih =>
    by_cases hp : p.1 = k
    · rw [rdel, if_pos hp, rkeys_cons, List.filter_cons]
      have hb : (!(p.1 == k)) = false := by simp [hp]
      rw [hb]
      simp only [Bool.false_eq_true, if_false]
      exact ih
    · rw [rdel, if_neg hp, rkeys_cons, rkeys_cons, List.filter_cons]
      have hb : (!(p.1 == k)) = true := by simp [hp]
      rw [hb, if_pos rfl, ih]

theorem rset_snd_mem {β : Type} (r : List (String × β)) (k : String) (v x : β)
    (h : x ∈ (rset r k v).map (fun p => p.2)) :
    x ∈ r.map (fun p => p.2) ∨ x = v := by
  rcases List.mem_map.mp h with ⟨q, hq, hqx⟩
  rcases mem_rset r k v q hq with hq2 | hq2
  · exact Or.inl (hqx ▸ List.mem_map_of_mem _ hq2)
  · right
    rw [← hqx, hq2]

theorem rset_snd_nodup {β : Type} (r : List (String × β)) (k : String) (v : β)
    (hnd : (r.map (fun p => p.2)).Nodup) (hv : ∀ p ∈ r, p.2 ≠ v) :
    ((rset r k v).map (fun p => p.2)).Nodup := by
  induction r with
  | nil => simp [rset]
  | cons p r ih =>
    rw [List.map_cons, List.nodup_cons] at hnd
    by_cases hp : p.1 = k
    · rw [rset, if_pos hp, List.map_cons, List.nodup_cons]
      constructor
      · intro hc
        rcases List.mem_map.mp hc with ⟨q, hq, hqv⟩
        exact hv q (List.mem_cons_of_mem _ hq) hqv
      · exact hnd.2
    · rw [rset, if_neg hp, List.map_cons, List.nodup_cons]
      constructor
      · intro hc
        rcases rset_snd_mem r k v p.2 hc with hc2 | hc2
        · exact hnd.1 hc2
        · exact hv p (List.mem_cons_self _ _) hc2
      · exact ih hnd.2 (fun q hq => hv q (List.mem_cons_of_mem _ hq))

/-- Adding a fresh chunk record and slot mapping at the current counter
and bumping the counter preserves the bookkeeping invariant. -/
theorem metaInv_set (m : DocumentMetadata) (key : String) (chunk : DocumentChunk)
    (h : MetaInv m) :
    MetaInv { m with
      chunks := rset m.chunks key chunk,
      chunkToIndex := rset m.chunkToIndex key m.count,
      count := m.count + 1 } := by
  rcases h with ⟨hkeys, hnd, hvals, hbound⟩
  refine ⟨?_, ?_, ?_, ?_⟩
  · show rkeys (rset m.chunks key chunk) = rkeys (rset m.chunkToIndex key m.count)
    rcases hk : rget m.chunks key with _ | w
    · have hk2 : rget m.chunkToIndex key = none := by
        rw [rget_eq_none_iff] at hk ⊢
        rw [← hkeys]
        exact hk
      rw [rkeys_rset_of_none _ _ _ hk, rkeys_rset_of_none _ _ _ hk2, hkeys]
    · have hk2 : ¬ rget m.chunkToIndex key = none := by
        rw [rget_eq_none_iff, ← hkeys, ← rget_eq_none_iff, hk]
        simp
      rw [rkeys_rset_of_some _ _ _ (by rw [hk]; simp), rkeys_rset_of_some _ _ _ hk2, hkeys]
  · exact rkeys_rset_nodup _ _ _ hnd
  · exact rset_snd_nodup _ _ _ hvals (fun p hp => Nat.ne_of_lt (hbound p hp))
  · intro p hp
    rcases mem_rset _ _ _ p hp with hp2 | hp2
    · exact Nat.lt_succ_of_lt (hbound p hp2)
    · rw [hp2]
      exact Nat.lt_succ_self _

/-- The per-chunk store loop preserves the invariant, never decreases
the counter, and never changes the binding of an already-assigned
slot id (whether it ends in success or in an embedding error). -/
theorem chunkLoop_invariant (embed : List Char → Option (List ℚ)) (docId : String)
    (clen : Nat) :
    ∀ (chunks : List (List Char)) (i : Nat) (s t : VSState),
      MetaInv s.meta →
      (chunkLoop embed docId clen chunks i s = .ok t ∨
        chunkLoop embed docId clen chunks i s = .error t) →
      MetaInv t.meta ∧ s.meta.count ≤ t.meta.count ∧
      (∀ c v, rget t.meta.chunkToIndex c = some v → v < s.meta.count →
        rget s.meta.chunkToIndex c = some v) := by
  intro chunks
  induction chunks with
  | nil =>
    intro i s t hinv hres
    rcases hres with h | h
    · cases h
      exact ⟨hinv, le_refl _, fun c v hc _ => hc⟩
    · exact Except.noConfusion h
  | cons c cs ih =>
    intro i s t hinv hres
    rcases he : embed c with _ | v
    · simp only [chunkLoop, he] at hres
      rcases hres with h | h
      · exact Except.noConfusion h
      · cases h
        exact ⟨hinv, le_refl _, fun c v hc _ => hc⟩
    · simp only [chunkLoop, he] at hres
      have hinv2 : MetaInv (VSState.meta { s with
          index := addPoint s.index v s.meta.count,
          meta := { s.meta with
            chunks := rset s.meta.chunks (mkChunkId docId i) (mkDocumentChunk docId i c clen),
            chunkToIndex := rset s.meta.chunkToIndex (mkChunkId docId i) s.meta.count,
            count := s.meta.count + 1 } }) :=
        metaInv_set s.meta (mkChunkId docId i) (mkDocumentChunk docId i c clen) hinv
      obtain ⟨hinv3, hcnt, hbind⟩ := ih (i + 1) _ t hinv2 hres
      refine ⟨hinv3, ?_, ?_⟩
      · exact le_trans (Nat.le_succ _) hcnt
      · intro cc vv hcc hvv
        have hcc2 := hbind cc vv hcc (Nat.lt_succ_of_lt hvv)
        by_cases hkey : mkChunkId docId i = cc
        · rw [← hkey, rget_rset_self] at hcc2
          cases hcc2
          exact absurd hvv (Nat.lt_irrefl _)
        · rw [rget_rset_ne _ _ _ _ hkey] at hcc2
          exact hcc2

theorem delChunkStep_invariant (t : VSState) (chunk : DocumentChunk)
    (h : MetaInv t.meta) :
    MetaInv (delChunkStep t chunk).meta ∧
    (delChunkStep t chunk).meta.count = t.meta.count ∧
    (∀ c v, rget (delChunkStep t chunk).meta.chunkToIndex c = some v →
      rget t.meta.chunkToIndex c = some v) := by
  rcases h with ⟨hkeys, hnd, hvals, hbound⟩
  rcases hx : rget t.meta.chunkToIndex chunk.id with _ | vectorIndex
  · have hnotmem : chunk.id ∉ rkeys t.meta.chunks := by
      rw [hkeys, ← rget_eq_none_iff]
      exact hx
    have hnoop : rdel t.meta.chunks chunk.id = t.meta.chunks :=
      rdel_of_not_mem _ _ hnotmem
    refine ⟨?_, ?_, ?_⟩
    · simp only [delChunkStep, hx, hnoop]
      exact ⟨hkeys, hnd, hvals, hbound⟩
    · simp only [delChunkStep, hx]
    · intro c v hc
      simpa only [delChunkStep, hx] using hc
  · refine ⟨?_, ?_, ?_⟩
    · simp only [delChunkStep, hx]
      refine ⟨?_, ?_, ?_, ?_⟩
      · show rkeys (rdel t.meta.chunks chunk.id) = rkeys (rdel t.meta.chunkToIndex chunk.id)
        rw [rkeys_rdel, rkeys_rdel, hkeys]
      · show (rkeys (rdel t.meta.chunkToIndex chunk.id)).Nodup
        rw [rkeys_rdel]
        exact hnd.filter _
      · show ((rdel t.meta.chunkToIndex chunk.id).map (fun p => p.2)).Nodup
        exact hvals.sublist ((rdel_sublist _ _).map _)
      · intro p hp
        exact hbound p ((rdel_sublist _ _).mem hp)
    · simp only [delChunkStep, hx]
    · intro c v hc
      simp only [delChunkStep, hx] at hc
      rw [rget_rdel] at hc
      by_cases hck : c = chunk.id
      · rw [if_pos hck] at hc
        exact Option.noConfusion hc
      · rw [if_neg hck] at hc
        exact hc

theorem delFold_invariant :
    ∀ (l : List DocumentChunk) (t : VSState), MetaInv t.meta →
      MetaInv (l.foldl delChunkStep t).meta ∧
      (l.foldl delChunkStep t).meta.count = t.meta.count ∧
      (∀ c v, rget (l.foldl delChunkStep t).meta.chunkToIndex c = some v →
        rget t.meta.chunkToIndex c = some v) := by
  intro l
  induction l with
  | nil => intro t ht; exact ⟨ht, rfl, fun c v hc => hc⟩
  | cons chunk l ih =>
    intro t ht
    obtain ⟨h1, h2, h3⟩ := delChunkStep_invariant t chunk ht
    obtain ⟨h4, h5, h6⟩ := ih (delChunkStep t chunk) h1
    exact ⟨h4, by rw [List.foldl_cons, h5, h2],
      fun c v hc => h3 c v (h6 c v hc)⟩

theorem deleteDocument_invariant (s : VSState) (userId documentId : String)
    (h : MetaInv s.meta) :
    MetaInv (deleteDocument s userId documentId).2.meta ∧
    s.meta.count ≤ (deleteDocument s userId documentId).2.meta.count ∧
    (∀ c v, rget (deleteDocument s userId documentId).2.meta.chunkToIndex c = some v →
      v < s.meta.count → rget s.meta.chunkToIndex c = some v) := by
  rcases hdoc : rget s.meta.documents documentId with _ | document
  · simp only [deleteDocument, hdoc]
    exact ⟨h, le_refl _, fun c v hc _ => hc⟩
  · by_cases hu : document.userId ≠ userId
    · simp only [deleteDocument, hdoc, if_pos hu]
      exact ⟨h, le_refl _, fun c v hc _ => hc⟩
    · simp only [deleteDocument, hdoc, if_neg hu]
      obtain ⟨h1, h2, h3⟩ := delFold_invariant
        ((((VSState.mk s.meta s.index s.diskMeta s.diskIndex s.metaWrites s.indexWrites
          (s.files.filter (fun f => f ≠ document.filePath))).meta.chunks.map
            (fun p => p.2)).filter (fun chunk => chunk.documentId = documentId)))
        { s with files := s.files.filter (fun f => f ≠ document.filePath) } h
      exact ⟨h1, le_of_eq h2.symm, fun c v hc _ => h3 c v hc⟩

theorem ite_writeIndex_meta (P : Prop) [Decidable P] (x : VSState) :
    (if P then writeIndex x else x).meta = x.meta := by
  by_cases hp : P
  · simp [hp, writeIndex]
  · simp [hp]

theorem step_invariant (s : VSState) (op : Op) (h : MetaInv s.meta) :
    MetaInv (step s op).meta ∧ s.meta.count ≤ (step s op).meta.count ∧
    (∀ c v, rget (step s op).meta.chunkToIndex c = some v → v < s.meta.count →
      rget s.meta.chunkToIndex c = some v) := by
  cases op with
  | search u knn limit => exact ⟨h, le_refl _, fun c v hc _ => hc⟩
  | list u => exact ⟨h, le_refl _, fun c v hc _ => hc⟩
  | del u d => exact deleteDocument_invariant s u d h
  | store u d o e up c fs em =>
    have hinv1 : MetaInv (VSState.meta { s with
        files := (d ++ e) :: s.files,
        meta := { s.meta with
          documents := rset s.meta.documents d (mkDocumentData u d o e up c fs) } }) := h
    rcases hcl : chunkLoop em d c.length ((chunkText c 1000 200).getD []) 0
      { s with
        files := (d ++ e) :: s.files,
        meta := { s.meta with
          documents := rset s.meta.documents d (mkDocumentData u d o e up c fs) } }
      with t | t
    · obtain ⟨h1, h2, h3⟩ := chunkLoop_invariant em d c.length _ 0 _ t hinv1 (Or.inr hcl)
      have hstep : step s (Op.store u d o e up c fs em) = t := by
        simp only [step, storeDocument, hcl]
      rw [hstep]
      exact ⟨h1, h2, h3⟩
    · obtain ⟨h1, h2, h3⟩ := chunkLoop_invariant em d c.length _ 0 _ t hinv1 (Or.inl hcl)
      have hstep : (step s (Op.store u d o e up c fs em)).meta =
          (VSState.meta { t with
            meta := { t.meta with
              userDocuments := rset t.meta.userDocuments u
                ((rget t.meta.userDocuments u).getD [] ++ [d]) } }) := by
        simp only [step, storeDocument, hcl, saveDocumentMetadata]
        rw [ite_writeIndex_meta]
      rw [hstep]
      exact ⟨h1, h2, h3⟩

theorem metaInv_unique_entry (m : DocumentMetadata) (h : MetaInv m) (c : String)
    (hc : (rget m.chunks c).isSome) :
    m.chunkToIndex.countP (fun p => p.1 == c) = 1 := by
  rcases h with ⟨hkeys, hnd, _, _⟩
  have hmem : c ∈ rkeys m.chunks := by
    by_contra hcon
    rw [← rget_eq_none_iff] at hcon
    rw [hcon] at hc
    exact Bool.noConfusion hc
  rw [hkeys] at hmem
  have h1 : m.chunkToIndex.countP (fun p => p.1 == c) =
      (rkeys m.chunkToIndex).count c := by
    rw [rkeys, List.count, List.countP_map]
    rfl
  rw [h1]
  exact List.count_eq_one_of_mem hnd hmem

/-- The fully empty fresh state of the module (new index, fresh
metadata). -/
def emptyState : VSState :=
  { meta := { count := 0, userDocuments := [], documents := [], chunks := [], chunkToIndex := [] }
    index := { points := [], deleted := [] }
    diskMeta := { count := 0, userDocuments := [], documents := [], chunks := [], chunkToIndex := [] }
    diskIndex := { points := [], deleted := [] }
    metaWrites := 0
    indexWrites := 0
    files := [] }

/-- **C6**: across any sequence of store/search/list/delete calls, the
slot counter never decreases, a slot id below the old counter keeps
its binding (so a slot id is never reassigned to a different chunk —
new assignments always use fresh ids at or above the counter), and
every live chunk record has exactly one entry in `chunkToIndex`. -/
theorem vectorStore_slot_invariants (s : VSState) (ops : List Op) (h : MetaInv s.meta) :
    MetaInv (run s ops).meta ∧
    s.meta.count ≤ (run s ops).meta.count ∧
    (∀ c v, rget (run s ops).meta.chunkToIndex c = some v → v < s.meta.count →
      rget s.meta.chunkToIndex c = some v) ∧
    (∀ c, (rget (run s ops).meta.chunks c).isSome →
      (run s ops).meta.chunkToIndex.countP (fun p => p.1 == c) = 1) := by
  have main : ∀ (ops : List Op) (s : VSState), MetaInv s.meta →
      MetaInv (run s ops).meta ∧
      s.meta.count ≤ (run s ops).meta.count ∧
      (∀ c v, rget (run s ops).meta.chunkToIndex c = some v → v < s.meta.count →
        rget s.meta.chunkToIndex c = some v) := by
    intro ops
    induction ops with
    | nil => intro s hs; exact ⟨hs, le_refl _, fun c v hc _ => hc⟩
    | cons op ops ih =>
      intro s hs
      obtain ⟨h1, h2, h3⟩ := step_invariant s op hs
      obtain ⟨h4, h5, h6⟩ := ih (step s op) h1
      refine ⟨h4, le_trans h2 h5, ?_⟩
      intro c v hc hv
      exact h3 c v (h6 c v hc (lt_of_lt_of_le hv h2)) hv
  obtain ⟨h1, h2, h3⟩ := main ops s h
  exact ⟨h1, h2, h3, fun c hc => metaInv_unique_entry _ h1 c hc⟩

/-- Witness for C6 on a concrete one-store trace from the fresh state. -/
theorem vectorStore_slot_invariants_witness :
    MetaInv (run emptyState
      [Op.store "u" "d" "n" ".txt" "t" ('a' :: []) 1 (fun _ => some [])]).meta ∧
    emptyState.meta.count ≤ (run emptyState
      [Op.store "u" "d" "n" ".txt" "t" ('a' :: []) 1 (fun _ => some [])]).meta.count ∧
    (∀ c v, rget (run emptyState
      [Op.store "u" "d" "n" ".txt" "t" ('a' :: []) 1 (fun _ => some [])]).meta.chunkToIndex c = some v →
      v < emptyState.meta.count → rget emptyState.meta.chunkToIndex c = some v) ∧
    (∀ c, (rget (run emptyState
      [Op.store "u" "d" "n" ".txt" "t" ('a' :: []) 1 (fun _ => some [])]).meta.chunks c).isSome →
      (run emptyState
        [Op.store "u" "d" "n" ".txt" "t" ('a' :: []) 1 (fun _ => some [])]).meta.chunkToIndex.countP
        (fun p => p.1 == c) = 1) :=
  vectorStore_slot_invariants emptyState
    [Op.store "u" "d" "n" ".txt" "t" ('a' :: []) 1 (fun _ => some [])] (by decide)

/-! ### Exact characterization of the store loop -/

theorem chunkLoop_append (embed : List Char → Option (List ℚ)) (docId : String)
    (clen : Nat) (pre rest : List (List Char)) :
    ∀ (i : Nat) (s : VSState),
      chunkLoop embed docId clen (pre ++ rest) i s =
        match chunkLoop embed docId clen pre i s with
        | .ok t => chunkLoop embed docId clen rest (i + pre.length) t
        | .error t => .error t := by
  induction pre with
  | nil =>
    intro i s
    simp [chunkLoop]
  | cons c pre ih =>
    intro i s
    rw [List.cons_append]
    rcases he : embed c with _ | v
    · simp [chunkLoop, he]
    · simp only [chunkLoop, he]
      rw [ih]
      rcases hcl : chunkLoop embed docId clen pre (i + 1) _ with t | t
      · rfl
      · rw [show i + 1 + pre.length = i + (pre.length + 1) from by omega]
        rfl

theorem chunkLoop_ok (embed : List Char → Option (List ℚ)) (docId : String)
    (clen : Nat) :
    ∀ (chunks : List (List Char)),
      (∀ c ∈ chunks, (embed c).isSome) →
      ∀ (i : Nat) (s : VSState), ∃ t,
      chunkLoop embed docId clen chunks i s = .ok t ∧
      t.meta.count = s.meta.count + chunks.length ∧
      t.meta.documents = s.meta.documents ∧
      t.meta.userDocuments = s.meta.userDocuments ∧
      t.metaWrites = s.metaWrites ∧
      t.indexWrites = s.indexWrites ∧
      t.diskMeta = s.diskMeta ∧
      t.diskIndex = s.diskIndex ∧
      t.files = s.files ∧
      t.index.deleted = s.index.deleted ∧
      (∃ newPts, t.index.points = s.index.points ++ newPts ∧
        newPts.map (fun p => p.1) =
          (List.range chunks.length).map (fun j => s.meta.count + j)) ∧
      (∀ c, (∀ j, j < chunks.length → c ≠ mkChunkId docId (i + j)) →
        rget t.meta.chunkToIndex c = rget s.meta.chunkToIndex c ∧
        rget t.meta.chunks c = rget s.meta.chunks c) ∧
      (∀ j (hj : j < chunks.length),
        rget t.meta.chunkToIndex (mkChunkId docId (i + j)) = some (s.meta.count + j) ∧
        rget t.meta.chunks (mkChunkId docId (i + j)) =
          some (mkDocumentChunk docId (i + j) (chunks.get ⟨j, hj⟩) clen)) := by
  intro chunks
  induction chunks with
  | nil =>
    intro _ i s
    refine ⟨s, rfl, by simp, rfl, rfl, rfl, rfl, rfl, rfl, rfl, rfl,
      ⟨[], by simp, by simp⟩, fun c _ => ⟨rfl, rfl⟩, fun j hj => absurd hj (by simp)⟩
  | cons c cs ih =>
    intro hall i s
    obtain ⟨v, he⟩ := Option.isSome_iff_exists.mp (hall c (List.mem_cons_self _ _))
    obtain ⟨t, heq, hcount, hdocs, huser, hmw, hiw, hdm, hdi, hfl, hdel,
        ⟨newPts, hpts, hlabels⟩, hframe, hperj⟩ :=
      ih (fun x hx => hall x (List.mem_cons_of_mem _ hx)) (i + 1)
        { s with
          index := addPoint s.index v s.meta.count,
          meta := { s.meta with
            chunks := rset s.meta.chunks (mkChunkId docId i) (mkDocumentChunk docId i c clen),
            chunkToIndex := rset s.meta.chunkToIndex (mkChunkId docId i) s.meta.count,
            count := s.meta.count + 1 } }
    dsimp only at hcount hdocs huser hmw hiw hdm hdi hfl hdel hpts hlabels hframe hperj
    refine ⟨t, ?_, ?_, hdocs, huser, hmw, hiw, hdm, hdi, hfl, hdel, ?_, ?_, ?_⟩
    · simp only [chunkLoop, he]
      exact heq
    · rw [hcount]
      simp only [List.length_cons]
      omega
    · refine ⟨(s.meta.count, v) :: newPts, ?_, ?_⟩
      · rw [hpts]
        simp only [addPoint, List.append_assoc, List.singleton_append]
      · simp only [List.map_cons, hlabels, List.length_cons]
        rw [List.range_succ_eq_map, List.map_cons, List.map_map]
        congr 1
        · apply List.map_congr_left
          intro a _
          simp only [Function.comp_apply]
          omega
    · intro cc hcc
      have hcc2 : ∀ j, j < cs.length → cc ≠ mkChunkId docId (i + 1 + j) := by
        intro j hj
        rw [show i + 1 + j = i + (j + 1) from by omega]
        exact hcc (j + 1) (by simp only [List.length_cons]; omega)
      obtain ⟨h1, h2⟩ := hframe cc hcc2
      have hkey : cc ≠ mkChunkId docId i := by
        have := hcc 0 (by simp only [List.length_cons]; omega)
        rw [Nat.add_zero] at this
        exact this
      rw [h1, h2, rget_rset_ne _ _ _ _ (fun hc => hkey hc.symm),
        rget_rset_ne _ _ _ _ (fun hc => hkey hc.symm)]
      exact ⟨rfl, rfl⟩
    · intro j hj
      match j with
      | 0 =>
        have hfr : ∀ jj, jj < cs.length →
            mkChunkId docId (i + 0) ≠ mkChunkId docId (i + 1 + jj) := by
          intro jj hjj hc
          have := mkChunkId_inj docId _ _ hc
          omega
        obtain ⟨h1, h2⟩ := hframe (mkChunkId docId (i + 0)) hfr
        simp only [Nat.add_zero] at h1 h2 ⊢
        refine ⟨?_, ?_⟩
        · rw [h1]
          exact rget_rset_self _ _ _
        · rw [h2]
          exact rget_rset_self _ _ _
      | jj + 1 =>
        have hjj : jj < cs.length := by
          simp only [List.length_cons] at hj
          omega
        obtain ⟨h1, h2⟩ := hperj jj hjj
        rw [show i + 1 + jj = i + (jj + 1) from by omega] at h1 h2
        refine ⟨?_, ?_⟩
        · rw [h1]
          congr 1
          omega
        · rw [h2]
          rfl

/-- **C10**: `storeDocument` is not atomic on failure.  If embedding
fails at chunk `i > 0`, the call rethrows, yet the in-memory metadata
keeps the new document record, the chunk records and slot mappings of
chunks `0..i-1`, and a counter advanced by `i` with those vectors in
the index — while the metadata JSON was not rewritten by this call and
the document id was never appended to the user's list. -/
theorem storeDocument_partial_on_embed_failure
    (s : VSState) (userId documentId originalName fileExtension uploadedAt : String)
    (content : List Char) (fileSize : Nat) (embed : List Char → Option (List ℚ))
    (pre : List (List Char)) (bad : List Char) (post : List (List Char))
    (hsplit : (chunkText content 1000 200).getD [] = pre ++ bad :: post)
    (hpre : ∀ c ∈ pre, (embed c).isSome)
    (hbad : embed bad = none)
    (_hpos : 0 < pre.length) :
    ∃ t, storeDocument s userId documentId originalName fileExtension uploadedAt
        content fileSize embed = .error t ∧
      rget t.meta.documents documentId = some (mkDocumentData userId documentId
        originalName fileExtension uploadedAt content fileSize) ∧
      t.meta.count = s.meta.count + pre.length ∧
      (∀ j (hj : j < pre.length),
        rget t.meta.chunkToIndex (mkChunkId documentId j) = some (s.meta.count + j) ∧
        rget t.meta.chunks (mkChunkId documentId j) =
          some (mkDocumentChunk documentId j (pre.get ⟨j, hj⟩) content.length)) ∧
      (∃ newPts, t.index.points = s.index.points ++ newPts ∧
        newPts.map (fun p => p.1) = (List.range pre.length).map (fun j => s.meta.count + j)) ∧
      t.metaWrites = s.metaWrites ∧
      t.diskMeta = s.diskMeta ∧
      rget t.meta.userDocuments userId = rget s.meta.userDocuments userId := by
  obtain ⟨t, heq, hcount, hdocs, huser, hmw, hiw, hdm, hdi, hfl, hdel,
      ⟨newPts, hpts, hlabels⟩, hframe, hperj⟩ :=
    chunkLoop_ok embed documentId content.length pre hpre 0
      { s with
        files := (documentId ++ fileExtension) :: s.files,
        meta := { s.meta with
          documents := rset s.meta.documents documentId (mkDocumentData userId documentId
            originalName fileExtension uploadedAt content fileSize) } }
  dsimp only at hcount hdocs huser hmw hiw hdm hdi hfl hdel hpts hlabels hframe hperj
  have hleq : chunkLoop embed documentId content.length
      ((chunkText content 1000 200).getD []) 0
      { s with
        files := (documentId ++ fileExtension) :: s.files,
        meta := { s.meta with
          documents := rset s.meta.documents documentId (mkDocumentData userId documentId
            originalName fileExtension uploadedAt content fileSize) } } = .error t := by
    rw [hsplit, chunkLoop_append, heq]
    simp [chunkLoop, hbad]
  refine ⟨t, ?_, ?_, hcount, ?_, ⟨newPts, hpts, hlabels⟩, hmw, hdm, ?_⟩
  · simp only [storeDocument, hleq]
  · rw [hdocs]
    exact rget_rset_self _ _ _
  · intro j hj
    obtain ⟨h1, h2⟩ := hperj j hj
    rw [Nat.zero_add] at h1 h2
    exact ⟨h1, h2⟩
  · rw [huser]

theorem ite_writeIndex_fields (P : Prop) [Decidable P] (x : VSState) :
    (if P then writeIndex x else x).metaWrites = x.metaWrites ∧
    (if P then writeIndex x else x).meta = x.meta ∧
    (if P then writeIndex x else x).indexWrites =
      x.indexWrites + (if P then 1 else 0) := by
  by_cases hp : P <;> simp [hp, writeIndex]

/-- **C8 (amended)**: a successful `storeDocument` rewrites the
metadata JSON exactly once (after all chunks are processed) and
rewrites the binary index file exactly when the final counter value is
a multiple of 10 — the check runs once per call, after the loop, not
per chunk insertion. -/
theorem storeDocument_persistence
    (s : VSState) (userId documentId originalName fileExtension uploadedAt : String)
    (content : List Char) (fileSize : Nat) (embed : List Char → Option (List ℚ))
    (hall : ∀ c ∈ (chunkText content 1000 200).getD [], (embed c).isSome) :
    ∃ t, storeDocument s userId documentId originalName fileExtension uploadedAt
        content fileSize embed = .ok (documentId, t) ∧
      t.meta.count = s.meta.count + ((chunkText content 1000 200).getD []).length ∧
      t.metaWrites = s.metaWrites + 1 ∧
      t.indexWrites = s.indexWrites +
        (if (s.meta.count + ((chunkText content 1000 200).getD []).length) % 10 = 0
          then 1 else 0) := by
  obtain ⟨t2, heq, hcount, hdocs, huser, hmw, hiw, hdm, hdi, hfl, hdel, _, _, _⟩ :=
    chunkLoop_ok embed documentId content.length ((chunkText content 1000 200).getD [])
      hall 0
      { s with
        files := (documentId ++ fileExtension) :: s.files,
        meta := { s.meta with
          documents := rset s.meta.documents documentId (mkDocumentData userId documentId
            originalName fileExtension uploadedAt content fileSize) } }
  dsimp only at hcount hmw hiw
  simp only [storeDocument, heq, saveDocumentMetadata]
  by_cases hmod : (s.meta.count + ((chunkText content 1000 200).getD []).length) % 10 = 0
  · have hc : t2.meta.count % 10 = 0 := by rw [hcount]; exact hmod
    rw [if_pos hc]
    simp only [writeIndex]
    exact ⟨_, rfl, hcount, by rw [hmw], by rw [hiw, if_pos hmod]⟩
  · have hc : ¬ t2.meta.count % 10 = 0 := by rw [hcount]; exact hmod
    rw [if_neg hc]
    exact ⟨_, rfl, hcount, by rw [hmw], by rw [hiw, if_neg hmod]; omega⟩

/-- Chunking with the defaults when the text is longer than one window
but fits in two: exactly the windows `[0,1000)` and `[800,len)`. -/
theorem chunkText_two_chunks (text : List Char) (h1 : 1000 < text.length)
    (h2 : text.length ≤ 1800) :
    chunkText text 1000 200 =
      some [(text.drop 0).take 1000, (text.drop 800).take (text.length - 800)] := by
  unfold chunkText
  rw [show (0 : Int) = ((0 : Nat) : Int) from rfl, chunkAux_nat_step]
  have hk1 : (0 : Nat) < text.length := by omega
  have hmin1 : min (0 + 1000) text.length = 1000 := by omega
  have hbr1 : ¬ text.length ≤ min (0 + 1000) text.length := by omega
  rw [if_pos hk1, if_neg hbr1]
  have harg1 : ((min (0 + 1000) text.length : Nat) : Int) - ((200 : Nat) : Int) =
      ((800 : Nat) : Int) := by omega
  rw [harg1]
  rcases hfl : text.length with _ | fl
  · omega
  · rw [show fl + 1 = fl + 1 from rfl, chunkAux_nat_step]
    have hk2 : (800 : Nat) < text.length := by omega
    have hmin2 : min (800 + 1000) text.length = text.length := by omega
    have hbr2 : text.length ≤ min (800 + 1000) text.length := by omega
    rw [← hfl, if_pos hk2, if_pos hbr2]
    simp only [Option.map_some']
    rw [hmin1, hmin2]

/-- **C3 (amended)**: storing a 2500-character text with the default
chunking produces exactly 3 chunks (offsets 0–1000, 800–1800,
1600–2500), each embedded and inserted at consecutive slot ids
starting from the current counter. -/
theorem storeDocument_2500_scenario
    (s : VSState) (userId documentId originalName fileExtension uploadedAt : String)
    (content : List Char) (fileSize : Nat) (embed : List Char → Option (List ℚ))
    (hlen : content.length = 2500)
    (hall : ∀ c ∈ (chunkText content 1000 200).getD [], (embed c).isSome) :
    (chunkText content 1000 200).getD [] =
      [(content.drop 0).take 1000, (content.drop 800).take 1000,
        (content.drop 1600).take 900] ∧
    ∃ t, storeDocument s userId documentId originalName fileExtension uploadedAt
        content fileSize embed = .ok (documentId, t) ∧
      t.meta.count = s.meta.count + 3 ∧
      (∀ j, j < 3 →
        rget t.meta.chunkToIndex (mkChunkId documentId j) = some (s.meta.count + j)) ∧
      (∃ newPts, t.index.points = s.index.points ++ newPts ∧
        newPts.map (fun p => p.1) =
          [s.meta.count, s.meta.count + 1, s.meta.count + 2]) := by
  have hch : (chunkText content 1000 200).getD [] =
      [(content.drop 0).take 1000, (content.drop 800).take 1000,
        (content.drop 1600).take 900] := by
    rw [chunkText_len2500 content hlen]
    rfl
  refine ⟨hch, ?_⟩
  rw [hch] at hall
  obtain ⟨t2, heq, hcount, hdocs, huser, hmw, hiw, hdm, hdi, hfl, hdel,
      ⟨newPts, hpts, hlabels⟩, hframe, hperj⟩ :=
    chunkLoop_ok embed documentId content.length
      [(content.drop 0).take 1000, (content.drop 800).take 1000,
        (content.drop 1600).take 900] hall 0
      { s with
        files := (documentId ++ fileExtension) :: s.files,
        meta := { s.meta with
          documents := rset s.meta.documents documentId (mkDocumentData userId documentId
            originalName fileExtension uploadedAt content fileSize) } }
  dsimp only at hcount hmw hiw hpts hlabels hperj
  have heq2 : chunkLoop embed documentId content.length
      ((chunkText content 1000 200).getD []) 0
      { s with
        files := (documentId ++ fileExtension) :: s.files,
        meta := { s.meta with
          documents := rset s.meta.documents documentId (mkDocumentData userId documentId
            originalName fileExtension uploadedAt content fileSize) } } = .ok t2 := by
    rw [hch]
    exact heq
  have hperj2 : ∀ j, j < 3 →
      rget t2.meta.chunkToIndex (mkChunkId documentId j) = some (s.meta.count + j) := by
    intro j hj
    have := (hperj j (by simpa using hj)).1
    rwa [Nat.zero_add] at this
  have hlabels2 : newPts.map (fun p => p.1) =
      [s.meta.count, s.meta.count + 1, s.meta.count + 2] := by
    rw [hlabels]
    simp [List.range_succ]
  simp only [storeDocument, heq2, saveDocumentMetadata]
  by_cases hc : t2.meta.count % 10 = 0
  · rw [if_pos hc]
    simp only [writeIndex]
    exact ⟨_, rfl, by simpa using hcount, hperj2, ⟨newPts, hpts, hlabels2⟩⟩
  · rw [if_neg hc]
    exact ⟨_, rfl, by simpa using hcount, hperj2, ⟨newPts, hpts, hlabels2⟩⟩

/-- Witness for C3's amended statement on a concrete 2500-character
document stored into the fresh state. -/
theorem storeDocument_2500_scenario_witness :
    ((chunkText (List.replicate 2500 'a') 1000 200).getD [] =
      [((List.replicate 2500 'a').drop 0).take 1000,
        ((List.replicate 2500 'a').drop 800).take 1000,
        ((List.replicate 2500 'a').drop 1600).take 900]) ∧
    ∃ t, storeDocument emptyState "u3" "d3" "n3" ".txt" "t3"
        (List.replicate 2500 'a') 7 (fun _ => some []) = .ok ("d3", t) ∧
      t.meta.count = emptyState.meta.count + 3 ∧
      (∀ j, j < 3 →
        rget t.meta.chunkToIndex (mkChunkId "d3" j) = some (emptyState.meta.count + j)) ∧
      (∃ newPts, t.index.points = emptyState.index.points ++ newPts ∧
        newPts.map (fun p => p.1) =
          [emptyState.meta.count, emptyState.meta.count + 1, emptyState.meta.count + 2]) :=
  storeDocument_2500_scenario emptyState "u3" "d3" "n3" ".txt" "t3"
    (List.replicate 2500 'a') 7 (fun _ => some [])
    (by rw [List.length_replicate]) (fun c _ => rfl)

/-- A state whose slot counter stands at 9, about to cross a multiple
of 10 during the next multi-chunk store. -/
def nineState : VSState :=
  { meta := { count := 9, userDocuments := [], documents := [], chunks := [], chunkToIndex := [] }
    index := { points := [], deleted := [] }
    diskMeta :=
      { count := 0, userDocuments := [], documents := [], chunks := [], chunkToIndex := [] }
    diskIndex := { points := [], deleted := [] }
    metaWrites := 0
    indexWrites := 0
    files := [] }

/-- Counterexample for C8: storing a 1001-character document (2 chunks)
from counter 9 advances the counter from 9 through 10 to 11 — so a
10th chunk insertion happens — yet the binary index file is never
rewritten during the call (the source checks the counter only once,
after the loop, and 11 is not a multiple of 10); the metadata is
written once. -/
theorem storeDocument_no_write_at_crossing :
    (storeDocument nineState "u" "d" "n" ".txt" "t" (List.replicate 1001 'a') 0
        (fun _ => some [])).toOption.map
      (fun p => (p.2.meta.count, p.2.indexWrites, p.2.metaWrites)) = some (11, 0, 1) ∧
    nineState.meta.count = 9 := by
  have hch := chunkText_two_chunks (List.replicate 1001 'a')
    (by rw [List.length_replicate]; omega) (by rw [List.length_replicate]; omega)
  refine ⟨?_, rfl⟩
  simp only [storeDocument, hch, Option.getD_some]
  simp only [chunkLoop]
  simp only [saveDocumentMetadata, nineState]
  norm_num [writeIndex]
  exact ⟨_, _, rfl, rfl, rfl, rfl⟩

/-- Witness for C8's amended statement at a concrete store. -/
theorem storeDocument_persistence_witness :
    ∃ t, storeDocument emptyState "u2" "d2" "n2" ".txt" "t2" ('a' :: []) 1
        (fun _ => some []) = .ok ("d2", t) ∧
      t.meta.count = emptyState.meta.count +
        ((chunkText ('a' :: []) 1000 200).getD []).length ∧
      t.metaWrites = emptyState.metaWrites + 1 ∧
      t.indexWrites = emptyState.indexWrites +
        (if (emptyState.meta.count +
            ((chunkText ('a' :: []) 1000 200).getD []).length) % 10 = 0
          then 1 else 0) :=
  storeDocument_persistence emptyState "u2" "d2" "n2" ".txt" "t2" ('a' :: []) 1
    (fun _ => some []) (fun _ _ => rfl)

/-- Witness for C10: a 1500-character document whose second chunk fails
to embed, stored into the fresh state. -/
theorem storeDocument_partial_on_embed_failure_witness :
    ∃ t, storeDocument emptyState "u4" "d4" "n4" ".txt" "t4"
        (List.replicate 1500 'a') 3
        (fun c => if c.length = 1000 then some [] else none) = .error t ∧
      rget t.meta.documents "d4" = some (mkDocumentData "u4" "d4" "n4" ".txt" "t4"
        (List.replicate 1500 'a') 3) ∧
      t.meta.count = emptyState.meta.count +
        [((List.replicate 1500 'a').drop 0).take 1000].length ∧
      (∀ j (hj : j < [((List.replicate 1500 'a').drop 0).take 1000].length),
        rget t.meta.chunkToIndex (mkChunkId "d4" j) = some (emptyState.meta.count + j) ∧
        rget t.meta.chunks (mkChunkId "d4" j) =
          some (mkDocumentChunk "d4" j
            ([((List.replicate 1500 'a').drop 0).take 1000].get ⟨j, hj⟩)
            (List.replicate 1500 'a').length)) ∧
      (∃ newPts, t.index.points = emptyState.index.points ++ newPts ∧
        newPts.map (fun p => p.1) =
          (List.range [((List.replicate 1500 'a').drop 0).take 1000].length).map
            (fun j => emptyState.meta.count + j)) ∧
      t.metaWrites = emptyState.metaWrites ∧
      t.diskMeta = emptyState.diskMeta ∧
      rget t.meta.userDocuments "u4" = rget emptyState.meta.userDocuments "u4" :=
  storeDocument_partial_on_embed_failure emptyState "u4" "d4" "n4" ".txt" "t4"
    (List.replicate 1500 'a') 3
    (fun c => if c.length = 1000 then some [] else none)
    [((List.replicate 1500 'a').drop 0).take 1000]
    (((List.replicate 1500 'a').drop 800).take 700) []
    (by
      rw [chunkText_two_chunks (List.replicate 1500 'a')
        (by rw [List.length_replicate]; omega) (by rw [List.length_replicate]; omega)]
      rw [List.length_replicate]
      rfl)
    (by
      intro c hc
      rw [List.mem_singleton] at hc
      subst hc
      have hl : (((List.replicate 1500 'a').drop 0).take 1000).length = 1000 := by
        rw [List.length_take, List.length_drop, List.length_replicate]
        omega
      simp only [hl, eq_self_iff_true, if_true, Option.isSome_some])
    (by
      have hl : ((((List.replicate 1500 'a')).drop 800).take 700).length = 700 := by
        rw [List.length_take, List.length_drop, List.length_replicate]
        omega
      simp only [hl]
      norm_num)
    (by decide)
